import Mathlib

/-!
Verification development for the `ClassAnalyzer` of
`ai_init_data/class_analyzer.py`.

The analyzer inspects live Python class objects.  We embed the inputs it
consumes (the views that `inspect.getmembers`, `vars`, `cls.__bases__`,
`get_type_hints`, `inspect.getsource` + `ast.parse`, pydantic
`model_fields` and `dataclasses.fields` expose) as explicit data, and
translate every analyzer method into a Lean function over that data.
Python attribute errors that the analyzer does not catch are modelled by
`Option` (a `none` result of a fallible analyzer function means the
corresponding Python call raises).
-/

/-- The compiled body of a Python function: models `__code__.co_code`
(a bytes object), as a list of byte values. -/
structure FuncCode where
  co_code : List Nat
deriving DecidableEq, Repr

/-- One parameter as exposed by `inspect.signature`: the stringified
annotation (`none` models the `Parameter.empty` sentinel) and the
stringified default (`none` models `Parameter.empty`). -/
structure ParamData where
  ann : Option String
  dflt : Option String
deriving DecidableEq, Repr

/-- Result of a successful `inspect.signature` call: the text
`str(inspect.signature(f))` and the ordered parameter list. -/
structure SigData where
  sigStr : String
  params : List (String × ParamData)
deriving DecidableEq, Repr

/-- A Python function object, carrying exactly the attributes the analyzer
reads.  `src` is the outcome of `inspect.getsource` (`none` models the
`TypeError`/`OSError` failure path); `sig` is the outcome of
`inspect.signature` (`none` models its `ValueError`/`TypeError` failure
path); `doc` is `inspect.getdoc`. -/
structure PyFunc where
  fname : String
  code : FuncCode
  doc : Option String
  is_abstract_m : Bool
  is_async_f : Bool
  modName : String
  qualname : String
  src : Option String
  sig : Option SigData
deriving DecidableEq, Repr

/-- A Python `property` object: optional getter, setter and deleter
functions and the `inspect.getdoc` text. -/
structure PyProp where
  fget : Option PyFunc
  fset : Option PyFunc
  fdel : Option PyFunc
  doc : Option String
deriving DecidableEq, Repr

/-- A plain (non-callable-descriptor) attribute value: its `str()` text,
the `str(type(value))` text and whether `callable(value)` holds. -/
structure PlainVal where
  reprStr : String
  typeName : String
  isCallable : Bool
deriving DecidableEq, Repr

/-- A class attribute as seen through `getattr` / `vars`:
`func` is a plain function (`inspect.isfunction`), `boundMethod` a bound
method (`inspect.ismethod`), `cmethodObj` / `smethodObj` raw
`classmethod` / `staticmethod` descriptor objects, `propMember` a
`property`, `plain` anything else. -/
inductive Member where
  | func (f : PyFunc)
  | boundMethod (f : PyFunc)
  | cmethodObj (f : PyFunc)
  | smethodObj (f : PyFunc)
  | propMember (p : PyProp)
  | plain (v : PlainVal)
deriving DecidableEq, Repr

/-- A decorator expression node of the syntax tree
(`ast.Name` / `ast.Attribute` / `ast.Call` / anything else). -/
inductive DecExpr where
  | nameE (id : String)
  | attrE (attr : String)
  | callE (fn : DecExpr)
  | otherE
deriving DecidableEq, Repr

/-- A node of the parsed class source, as yielded by `ast.walk`:
synchronous function definitions (`ast.FunctionDef`), asynchronous ones
(`ast.AsyncFunctionDef`) and any other node kind. -/
inductive AstNode where
  | funcDef (nm : String) (decs : List DecExpr)
  | asyncFuncDef (nm : String) (decs : List DecExpr)
  | otherNode
deriving DecidableEq, Repr

/-- Outcome of `inspect.getsource(cls)` followed by `ast.parse`:
`noSource` models a `TypeError`/`OSError` from `getsource`,
`unparseable` a `SyntaxError` from `ast.parse`, and `parsed` carries the
parsed tree through the node sequence `ast.walk` yields on it (the only
way the analyzer ever consumes the tree). -/
inductive SourceOutcome where
  | noSource
  | unparseable
  | parsed (walk : List AstNode)
deriving DecidableEq, Repr

/-- A direct base class, with the attribute view `getattr(base, ·)`
exposes (inherited attributes included, which is also the `dir(base)`
name set), its `__name__` and `__module__`, and whether it is the
builtin `object` type. -/
structure PyBase where
  bname : String
  modName : String
  isObject : Bool
  attrs : List (String × Member)
deriving DecidableEq, Repr

/-- The `default` slot of a pydantic `FieldInfo`: `pyNone` is the Python
`None` object, `undefined` the `PydanticUndefined` sentinel an unset
default carries, `val` any other value via its `str()` text. -/
inductive PydDefault where
  | pyNone
  | undefined
  | val (s : String)
deriving DecidableEq, Repr

/-- The `str()` text of a pydantic default slot. -/
def PydDefault.strOf : PydDefault → String
  | .pyNone => "None"
  | .undefined => "PydanticUndefined"
  | .val s => s

/-- A pydantic v2 `FieldInfo` as read by the analyzer: stringified
annotation, default slot, default factory (`none` is Python `None`,
`some s` a callable with `str()` text `s`, always truthy) and the
declared description (`none` is Python `None`). -/
structure PydField where
  ann : String
  default : PydDefault
  default_factory : Option String
  descr : Option String
deriving DecidableEq, Repr

/-- `FieldInfo.is_required()` of pydantic v2: no default and no default
factory. -/
def PydField.is_required (f : PydField) : Bool :=
  f.default = PydDefault.undefined && f.default_factory = none

/-- The `default` / `default_factory` slot of a `dataclasses.Field`:
`missing` is the `dataclasses.MISSING` sentinel an unset slot carries,
`paramEmpty` the distinct `inspect.Parameter.empty` sentinel, `val` any
other value via its `str()` text. -/
inductive DcDefault where
  | missing
  | paramEmpty
  | val (s : String)
deriving DecidableEq, Repr

/-- The `str()` text of a dataclass default slot.  `str(MISSING)` prints
the sentinel object (the host inserts an address; we use a fixed text,
only its presence matters). -/
def DcDefault.strOf : DcDefault → String
  | .missing => "<dataclasses._MISSING_TYPE object>"
  | .paramEmpty => "<class inspect._empty>"
  | .val s => s

/-- A `dataclasses.Field` as read by the analyzer. -/
structure DcField where
  fldName : String
  fldType : String
  default : DcDefault
  default_factory : DcDefault
deriving DecidableEq, Repr

/-- A Python class object, carrying the introspection views the analyzer
consumes: `cdict` is `vars(cls)` (the own namespace, in declaration
order), `members` the `inspect.getmembers(cls)` view (resolved
attributes, sorted by name), `bases` the direct bases `cls.__bases__`,
`typeHints` the stringified `get_type_hints(cls)` mapping, `srcOut` the
source/parse outcome for decorator recovery, `modelFields` the pydantic
`model_fields` mapping and `dcFields` the `dataclasses.fields` tuple. -/
structure PyClass where
  cname : String
  doc : Option String
  cdict : List (String × Member)
  members : List (String × Member)
  bases : List PyBase
  is_abstract_rt : Bool
  is_dataclass_c : Bool
  is_pydantic_c : Bool
  typeHints : List (String × String)
  srcOut : SourceOutcome
  modelFields : List (String × PydField)
  dcFields : List DcField
deriving DecidableEq, Repr

/-- Names declared directly in the class namespace (`cls.__dict__`). -/
def PyClass.dictNames (cls : PyClass) : List String :=
  cls.cdict.map Prod.fst

/-- Python `str.startswith`, over the character lists (kept
kernel-computable). -/
def str_startswith (s p : String) : Bool :=
  p.data.isPrefixOf s.data

/-- Python `str.endswith`, over the character lists. -/
def str_endswith (s p : String) : Bool :=
  p.data.isSuffixOf s.data

/-! ## Environment constants

The analyzer freezes, at construction time, the magic-method name set and
the attribute names contributed by `abc.ABC` and `pydantic.BaseModel`.
The latter two model `dir(...)` of the host environment through a
representative listing; their exact contents never decide a claim. -/

/-- The fixed magic-method set of `_init_magic_methods` (the source set
literal spells `__iter__` twice; as a membership test this is the same
set). -/
def magic_methods : List String :=
  ["__abs__", "__add__", "__and__", "__bool__", "__call__",
   "__enter__", "__exit__", "__next__", "__iter__",
   "__contains__", "__delattr__", "__delitem__", "__dir__",
   "__divmod__", "__eq__", "__float__", "__floordiv__",
   "__ge__", "__getattr__", "__getattribute__", "__getitem__",
   "__gt__", "__hash__", "__iadd__", "__iand__", "__ifloordiv__",
   "__ilshift__", "__imatmul__", "__imod__", "__imul__", "__index__",
   "__init__", "__init_subclass__", "__int__", "__invert__",
   "__ior__", "__ipow__", "__irshift__", "__isub__", "__iter__",
   "__itruediv__", "__ixor__", "__le__", "__len__", "__lshift__",
   "__lt__", "__matmul__", "__mod__", "__mul__", "__ne__",
   "__neg__", "__new__", "__or__", "__pos__", "__pow__",
   "__radd__", "__rand__", "__rdivmod__", "__reduce__",
   "__reduce_ex__", "__repr__", "__reversed__", "__rfloordiv__",
   "__rlshift__", "__rmatmul__", "__rmod__", "__rmul__", "__ror__",
   "__round__", "__rpow__", "__rrshift__", "__rshift__", "__rsub__",
   "__rtruediv__", "__rxor__", "__setattr__", "__setitem__",
   "__sizeof__", "__str__", "__sub__", "__subclasshook__",
   "__truediv__", "__xor__",
   "__aenter__", "__aexit__", "__anext__", "__aiter__"]

/-- Models `set(dir(abc.ABC))` of the host (representative entries). -/
def abc_attrs : List String :=
  ["__abstractmethods__", "__class__", "__delattr__", "__dict__",
   "__dir__", "__doc__", "__eq__", "__format__", "__ge__",
   "__getattribute__", "__gt__", "__hash__", "__init__",
   "__init_subclass__", "__le__", "__lt__", "__module__", "__ne__",
   "__new__", "__reduce__", "__reduce_ex__", "__repr__", "__setattr__",
   "__sizeof__", "__slots__", "__str__", "__subclasshook__", "register"]

/-- Models the `getattr(pydantic.BaseModel, ·)` attribute view of the
host (representative entries); its name set is `dir(BaseModel)`. -/
def base_model_attrs : List (String × Member) :=
  [("dict",
    Member.func { fname := "dict", code := { co_code := [90, 1] },
                  doc := none, is_abstract_m := false, is_async_f := false,
                  modName := "pydantic.main", qualname := "BaseModel.dict",
                  src := none, sig := none }),
   ("copy",
    Member.func { fname := "copy", code := { co_code := [90, 2] },
                  doc := none, is_abstract_m := false, is_async_f := false,
                  modName := "pydantic.main", qualname := "BaseModel.copy",
                  src := none, sig := none }),
   ("model_fields",
    Member.plain { reprStr := "mappingproxy()", typeName := "<class 'mappingproxy'>",
                   isCallable := false }),
   ("model_config",
    Member.plain { reprStr := "ConfigDict()", typeName := "<class 'dict'>",
                   isCallable := false })]

/-- Models `set(dir(pydantic.BaseModel))`: the name set of the modelled
attribute view. -/
def base_model_attr_names : List String :=
  base_model_attrs.map Prod.fst

/-! ## The Raises-section regex

`_parse_raises_from_docstring` runs
`re.search(r"Raises:\s*\n\s*(.*?)(?:\n\n|\n\s*Args:|\n\s*Returns:|\Z)", doc, re.DOTALL | re.IGNORECASE)`
followed by `re.findall(r"(\w+Error|\w+Exception)", group1)` and a set
dedup.  We implement the exact backtracking semantics of these two
patterns over character lists (ASCII classes for `\s` / `\w` /
case-folding, matching CPython on the ASCII range). -/

/-- Python `\s` on the ASCII range. -/
def isPySpace (c : Char) : Bool :=
  c = ' ' || c = '\t' || c = '\n' || c = '\r' || c = '\x0b' || c = '\x0c'

/-- Python `\w` on the ASCII range. -/
def isWordChar (c : Char) : Bool :=
  c.isAlphanum || c = '_'

/-- Case-insensitive literal match of `pat` (given lowercase) against a
prefix of `s`; returns the remainder on success. -/
def ciPrefix : List Char → List Char → Option (List Char)
  | [], s => some s
  | _ :: _, [] => none
  | p :: ps, c :: cs => if c.toLower = p then ciPrefix ps cs else none

/-- Attempt the search pattern at the current position: the literal
`Raises:` (case-insensitively), then `\s*\n\s*`.  Both `\s*` are greedy
and `\n` sits between them, so the prefix consumes the whole whitespace
run and requires it to contain a newline; the lazy group then starts at
the first non-whitespace character.  Returns the suffix at which the
group starts. -/
def matchRaisesAt (s : List Char) : Option (List Char) :=
  match ciPrefix "raises:".data s with
  | none => none
  | some r =>
    if (r.takeWhile isPySpace).contains '\n' then some (r.dropWhile isPySpace)
    else none

/-- `re.search` position scan: leftmost position whose prefix matches. -/
def findRaises : List Char → Option (List Char)
  | [] => none
  | c :: t =>
    match matchRaisesAt (c :: t) with
    | some r => some r
    | none => findRaises t

/-- Does the terminator `(?:\n\n|\n\s*Args:|\n\s*Returns:)` match at this
position?  (`\Z` is handled by the end of input in `takeSection`.) -/
def termAt : List Char → Bool
  | '\n' :: t =>
    t.head? = some '\n' ||
    (ciPrefix "args:".data (t.dropWhile isPySpace)).isSome ||
    (ciPrefix "returns:".data (t.dropWhile isPySpace)).isSome
  | _ => false

/-- The lazy group `(.*?)` with `re.DOTALL`: the shortest prefix after
which a terminator alternative (or the end of input) matches. -/
def takeSection : List Char → List Char
  | [] => []
  | c :: t => if termAt (c :: t) then [] else c :: takeSection t

/-- Largest split point `i` with `1 ≤ i ≤ bound` such that `lit` is a
literal prefix of `s.drop i` (the greedy `\w+` backtracks from the
longest candidate down). -/
def largestSplit (lit : List Char) (s : List Char) : Nat → Option Nat
  | 0 => none
  | i + 1 =>
    if lit.isPrefixOf (s.drop (i + 1)) then some (i + 1)
    else largestSplit lit s i

/-- Match `\w+lit` at the current position: `\w+` may only consume word
characters, so the split point is bounded by the maximal word run. -/
def matchTokenLit (lit : List Char) (s : List Char) : Option (List Char × List Char) :=
  match largestSplit lit s (s.takeWhile isWordChar).length with
  | none => none
  | some i => some (s.take (i + lit.length), s.drop (i + lit.length))

/-- Match the findall pattern `(\w+Error|\w+Exception)` at the current
position, alternatives in order. -/
def matchTokenAt (s : List Char) : Option (List Char × List Char) :=
  match matchTokenLit "Error".data s with
  | some r => some r
  | none => matchTokenLit "Exception".data s

theorem largestSplit_pos {lit s b i} (h : largestSplit lit s b = some i) : 1 ≤ i := by
  induction b with
  | zero => simp [largestSplit] at h
  | succ n ih =>
    unfold largestSplit at h
    by_cases hp : lit.isPrefixOf (s.drop (n + 1))
    · simp [hp] at h; omega
    · simp [hp] at h; exact ih h

theorem matchTokenLit_rest_lt {lit s m rest} (hs : s ≠ [])
    (h : matchTokenLit lit s = some (m, rest)) : rest.length < s.length := by
  unfold matchTokenLit at h
  cases hsp : largestSplit lit s (s.takeWhile isWordChar).length with
  | none => simp [hsp] at h
  | some i =>
    have hi := largestSplit_pos hsp
    simp only [hsp] at h
    cases h
    have hlen : s.length ≥ 1 := by
      cases s with
      | nil => exact absurd rfl hs
      | cons a t => simp
    simp only [List.length_drop]
    omega

theorem matchTokenAt_rest_lt {s m rest} (hs : s ≠ [])
    (h : matchTokenAt s = some (m, rest)) : rest.length < s.length := by
  unfold matchTokenAt at h
  cases h1 : matchTokenLit "Error".data s with
  | some r =>
    simp only [h1] at h; cases h
    exact matchTokenLit_rest_lt hs h1
  | none =>
    simp only [h1] at h
    exact matchTokenLit_rest_lt hs h

/-- `re.findall` over the section: scan left to right, emit each match
and resume after its end.  The scan position advances by at least one
character per step (`matchTokenAt_rest_lt`), so fuelling the recursion
with the input length computes the full scan; the fuel recursion keeps
the definition kernel-computable. -/
def findAllTokensGo : Nat → List Char → List String
  | 0, _ => []
  | fuel + 1, s =>
    match s with
    | [] => []
    | c :: t =>
      match matchTokenAt (c :: t) with
      | some (m, rest) => String.mk m :: findAllTokensGo fuel rest
      | none => findAllTokensGo fuel t

def findAllTokens (s : List Char) : List String :=
  findAllTokensGo s.length s

/-- `_parse_raises_from_docstring`: empty docstrings and docstrings
without a match yield `[]`; otherwise the deduplicated findall matches
of the lazy group (`list(set(...))` dedups; its iteration order is
unspecified, ours keeps first occurrences). -/
def parse_raises_from_docstring (doc : Option String) : List String :=
  match doc with
  | none => []
  | some d =>
    match findRaises d.data with
    | none => []
    | some sec => (findAllTokens (takeSection sec)).dedup

/-! ## Member redefinition tests -/

/-- The `__code__.co_code` attribute of a member, when the member has
one (`none` models an `AttributeError`): plain functions and bound
methods delegate to their code object; `classmethod` / `staticmethod`
descriptor objects, properties and plain values carry none. -/
def memberCode : Member → Option FuncCode
  | .func f => some f.code
  | .boundMethod f => some f.code
  | _ => none

/-- The `fget` attribute of a member (`none` models an
`AttributeError`; only `property` objects expose `fget`). -/
def memberFget : Member → Option (Option PyFunc)
  | .propMember p => some p.fget
  | _ => none

/-- `_is_method_redefined`: true immediately when the name sits in the
class's own namespace; otherwise scan the direct bases in order, and at
the first base exposing the name as a plain function, compare compiled
bodies.  Reading `member.__code__` on a member without one raises
(`none`). -/
def is_method_redefined (cls : PyClass) (name : String) (member : Member) : Option Bool :=
  if name ∈ cls.dictNames then some true
  else go cls.bases
where
  go : List PyBase → Option Bool
  | [] => some false
  | b :: bs =>
    match List.lookup name b.attrs with
    | none => go bs
    | some (Member.func bf) =>
      match memberCode member with
      | none => none
      | some c => some (decide (c.co_code ≠ bf.code.co_code))
    | some _ => go bs

/-- `_is_property_redefined`: same own-namespace fast path; otherwise at
each base exposing the name as a `property`, read `member.fget` (raising
when absent) and, when both getters exist, compare their compiled
bodies; a falsy getter on either side moves on to the next base. -/
def is_property_redefined (cls : PyClass) (name : String) (member : Member) : Option Bool :=
  if name ∈ cls.dictNames then some true
  else go cls.bases
where
  go : List PyBase → Option Bool
  | [] => some false
  | b :: bs =>
    match List.lookup name b.attrs with
    | some (Member.propMember bp) =>
      match memberFget member with
      | none => none
      | some fg =>
        match fg, bp.fget with
        | some g, some bg => some (decide (g.code.co_code ≠ bg.code.co_code))
        | _, _ => go bs
    | _ => go bs

/-- `_should_skip_member`: constructor and generated replacement method
of record types are always skipped; otherwise a member is skipped unless
it passes both redefinition tests (`not A or not B`, with Python's
short-circuit evaluation order). -/
def should_skip_member (cls : PyClass) (name : String) (member : Member) : Option Bool :=
  if (name = "__init__" || name = "__replace__") && cls.is_dataclass_c then some true
  else
    match is_method_redefined cls name member with
    | none => none
    | some r1 =>
      if !r1 then some true
      else
        match is_property_redefined cls name member with
        | none => none
        | some r2 => if !r2 then some true else some false

/-! ## Accessor extraction -/

/-- `_get_method_signature`: the signature text, `"()"` when
introspection fails. -/
def get_method_signature (f : PyFunc) : String :=
  match f.sig with
  | some s => s.sigStr
  | none => "()"

/-- One entry of the parameters mapping. -/
structure ParamDesc where
  ptype : String
  dflt : Option String
  descr : String
deriving DecidableEq, Repr

/-- `_get_method_parameters`: enumerate the signature's parameters,
excluding the implicit `self` / `cls` receivers; an introspection
failure leaves the mapping empty. -/
def get_method_parameters (f : PyFunc) : List (String × ParamDesc) :=
  match f.sig with
  | none => []
  | some s =>
    (s.params.filter (fun p => p.1 ≠ "self" && p.1 ≠ "cls")).map
      (fun p => (p.1, { ptype := p.2.ann.getD "Any", dflt := p.2.dflt, descr := "" }))

/-- `_get_method_source`: `inspect.getsource`, absent on failure. -/
def get_method_source (f : PyFunc) : Option String :=
  f.src

/-- `_get_decorator_name`: plain name, rightmost attribute, recursion
through calls, sentinel otherwise. -/
def get_decorator_name : DecExpr → String
  | .nameE id => id
  | .attrE a => a
  | .callE fn => get_decorator_name fn
  | .otherE => "unknown_decorator"

/-- The walk loop of `_get_method_decorators`: the first synchronous
function-definition node with the target name yields its decorator
names; no match yields `[]`. -/
def findDecorators : List AstNode → String → List String
  | [], _ => []
  | AstNode.funcDef nm decs :: rest, m =>
    if nm = m then decs.map get_decorator_name else findDecorators rest m
  | _ :: rest, m => findDecorators rest m

/-- `_get_method_decorators`: best-effort source re-parsing; a source or
parse failure yields `[]`. -/
def get_method_decorators (cls : PyClass) (method_name : String) : List String :=
  match cls.srcOut with
  | .parsed walk => findDecorators walk method_name
  | _ => []

/-! ## Method processing -/

/-- One method descriptor (`mtype` models the `"type"` key). -/
structure MethodInfo where
  mname : String
  mtype : String
  descr : String
  is_abstract : Bool
  is_async : Bool
  is_protected : Bool
  is_private : Bool
  is_magic : Bool
  signature : String
  parameters : List (String × ParamDesc)
  raises : List String
  source : Option String
  is_redefined : Bool
  decorators : List String
deriving DecidableEq, Repr

/-- `_is_method_redefined` specialised to a member that owns a
`__code__` (a function or bound method); on such members the general
test never raises. -/
def is_method_redefined_fn (cls : PyClass) (name : String) (f : PyFunc) : Bool :=
  if name ∈ cls.dictNames then true
  else go cls.bases
where
  go : List PyBase → Bool
  | [] => false
  | b :: bs =>
    match List.lookup name b.attrs with
    | some (Member.func bf) => f.code.co_code ≠ bf.code.co_code
    | _ => go bs

theorem is_method_redefined_func (cls : PyClass) (name : String) (f : PyFunc) :
    is_method_redefined cls name (Member.func f)
      = some (is_method_redefined_fn cls name f) := by
  unfold is_method_redefined is_method_redefined_fn
  by_cases h : name ∈ cls.dictNames
  · simp [h]
  · simp only [h, if_neg, ite_false]
    induction cls.bases with
    | nil => rfl
    | cons b bs ih =>
      simp only [is_method_redefined.go, is_method_redefined_fn.go]
      cases List.lookup name b.attrs with
      | none => exact ih
      | some m =>
        cases m with
        | func bf => simp [memberCode]
        | boundMethod bf => exact ih
        | cmethodObj bf => exact ih
        | smethodObj bf => exact ih
        | propMember p => exact ih
        | plain v => exact ih

theorem is_method_redefined_bound (cls : PyClass) (name : String) (f : PyFunc) :
    is_method_redefined cls name (Member.boundMethod f)
      = some (is_method_redefined_fn cls name f) := by
  unfold is_method_redefined is_method_redefined_fn
  by_cases h : name ∈ cls.dictNames
  · simp [h]
  · simp only [h, if_neg, ite_false]
    induction cls.bases with
    | nil => rfl
    | cons b bs ih =>
      simp only [is_method_redefined.go, is_method_redefined_fn.go]
      cases List.lookup name b.attrs with
      | none => exact ih
      | some m =>
        cases m with
        | func bf => simp [memberCode]
        | boundMethod bf => exact ih
        | cmethodObj bf => exact ih
        | smethodObj bf => exact ih
        | propMember p => exact ih
        | plain v => exact ih

/-- `_process_method`: assemble one method descriptor.  The underlying
function object is passed (for `classmethod` / `staticmethod` members
the caller unwraps `__func__`); `name` is the `getmembers` name,
`method.__name__` wins when non-empty (Python truthiness). -/
def process_method (cls : PyClass) (name : String) (method : PyFunc) : MethodInfo :=
  let is_redefined := is_method_redefined_fn cls name method
  let method_name := if method.fname ≠ "" then method.fname else name
  { mname := method_name
    mtype := "method"
    descr := method.doc.getD ""
    is_abstract := method.is_abstract_m
    is_async := method.is_async_f
    is_protected := str_startswith method_name "_" && !(str_startswith method_name "__")
    is_private := str_startswith method_name "__" && !(magic_methods.contains method_name)
    is_magic := magic_methods.contains method_name
    signature := get_method_signature method
    parameters := get_method_parameters method
    raises := parse_raises_from_docstring method.doc
    source := if is_redefined then get_method_source method else none
    is_redefined := is_redefined
    decorators := get_method_decorators cls name }

/-- `_get_class_methods`: walk the `getmembers` view, drop skipped
members, unwrap `classmethod` / `staticmethod` descriptors (overriding
the `"type"` key), keep functions and bound methods, and silently pass
over anything else.  A raising redefinition test aborts the analysis
(`none`). -/
def get_class_methods (cls : PyClass) : Option (List MethodInfo) :=
  go cls.members
where
  go : List (String × Member) → Option (List MethodInfo)
  | [] => some []
  | (name, member) :: rest =>
    match should_skip_member cls name member with
    | none => none
    | some skip =>
      match go rest with
      | none => none
      | some tail =>
        if skip then some tail
        else
          match member with
          | .cmethodObj f => some ({ process_method cls name f with mtype := "classmethod" } :: tail)
          | .smethodObj f => some ({ process_method cls name f with mtype := "staticmethod" } :: tail)
          | .func f => some (process_method cls name f :: tail)
          | .boundMethod f => some (process_method cls name f :: tail)
          | _ => some tail

/-! ## Property extraction -/

/-- Sub-descriptor of a getter / setter / deleter. -/
structure AccessorInfo where
  descr : String
  is_async : Bool
  raises : List String
  signature : String
deriving DecidableEq, Repr

/-- `_extract_accessor_info`. -/
def extract_accessor_info (a : PyFunc) : AccessorInfo :=
  { descr := a.doc.getD ""
    is_async := a.is_async_f
    raises := parse_raises_from_docstring a.doc
    signature := get_method_signature a }

/-- `_get_property_signature`. -/
def get_property_signature (p : PyProp) : String :=
  let parts :=
    (match p.fget with | some g => ["getter" ++ get_method_signature g] | none => []) ++
    (match p.fset with | some s => ["setter" ++ get_method_signature s] | none => []) ++
    (match p.fdel with | some d => ["deleter" ++ get_method_signature d] | none => [])
  "property(" ++ String.intercalate ", " parts ++ ")"

/-- `_get_property_source`: getter or setter source, absent on failure
or when the accessor is missing. -/
def get_property_source (p : PyProp) (is_getter : Bool) : Option String :=
  if is_getter then
    match p.fget with | some g => g.src | none => none
  else
    match p.fset with | some s => s.src | none => none

/-- `_is_property_redefined` specialised to a member that is an actual
`property` (as every member reaching `_extract_property_info` is); on
such members the general test never raises. -/
def is_property_redefined_prop (cls : PyClass) (name : String) (p : PyProp) : Bool :=
  if name ∈ cls.dictNames then true
  else go cls.bases
where
  go : List PyBase → Bool
  | [] => false
  | b :: bs =>
    match List.lookup name b.attrs with
    | some (Member.propMember bp) =>
      match p.fget, bp.fget with
      | some g, some bg => g.code.co_code ≠ bg.code.co_code
      | _, _ => go bs
    | _ => go bs

theorem is_property_redefined_prop_eq (cls : PyClass) (name : String) (p : PyProp) :
    is_property_redefined cls name (Member.propMember p)
      = some (is_property_redefined_prop cls name p) := by
  unfold is_property_redefined is_property_redefined_prop
  by_cases h : name ∈ cls.dictNames
  · simp [h]
  · simp only [h, if_neg, ite_false]
    induction cls.bases with
    | nil => rfl
    | cons b bs ih =>
      simp only [is_property_redefined.go, is_property_redefined_prop.go]
      cases List.lookup name b.attrs with
      | none => exact ih
      | some m =>
        cases m with
        | propMember bp =>
          simp only [memberFget]
          cases p.fget with
          | none => cases bp.fget with
            | none => exact ih
            | some bg => exact ih
          | some g => cases bp.fget with
            | none => exact ih
            | some bg => simp
        | func bf => exact ih
        | boundMethod bf => exact ih
        | cmethodObj bf => exact ih
        | smethodObj bf => exact ih
        | plain v => exact ih

/-- One property descriptor (`ptype` models the `"type"` key; the
`getter` / `setter` / `deleter` keys are present only for existing
accessors). -/
structure PropertyInfo where
  pname : String
  descr : String
  ptype : String
  is_abstract : Bool
  is_protected : Bool
  is_private : Bool
  signature : String
  source_getter : Option String
  source_setter : Option String
  is_redefined : Bool
  getter : Option AccessorInfo
  setter : Option AccessorInfo
  deleter : Option AccessorInfo
deriving DecidableEq, Repr

/-- `_extract_property_info`.  Note the property path has no magic-name
exemption for `is_private`, and the name is the getter's `__name__` when
a getter exists. -/
def extract_property_info (cls : PyClass) (name : String) (p : PyProp) : PropertyInfo :=
  let is_redefined := is_property_redefined_prop cls name p
  let prop_name := match p.fget with | some g => g.fname | none => name
  { pname := prop_name
    descr := p.doc.getD ""
    ptype := "property"
    is_abstract := (p.fget.map (fun g => g.is_abstract_m)).getD false
    is_protected := str_startswith prop_name "_" && !(str_startswith prop_name "__")
    is_private := str_startswith prop_name "__"
    signature := get_property_signature p
    source_getter := if is_redefined then get_property_source p true else none
    source_setter := if is_redefined then get_property_source p false else none
    is_redefined := is_redefined
    getter := p.fget.map extract_accessor_info
    setter := p.fset.map extract_accessor_info
    deleter := p.fdel.map extract_accessor_info }

/-- `_is_inherited_from_base_model`: a member of a pydantic class that
is the very declaration `BaseModel` provides (same module and qualified
name) is framework-contributed. -/
def is_inherited_from_base_model (cls : PyClass) (name : String) (member : Member) : Bool :=
  if !cls.is_pydantic_c then false
  else
    match List.lookup name base_model_attrs with
    | none => false
    | some bm =>
      match member with
      | .func f =>
        match bm with
        | .func bf => f.modName = bf.modName && f.qualname = bf.qualname
        | _ => false
      | .propMember p =>
        match bm with
        | .propMember bp =>
          match p.fget, bp.fget with
          | some g, some bg => g.modName = bg.modName && g.qualname = bg.qualname
          | _, _ => false
        | _ => false
      | _ => false

/-- `_get_class_properties`: the `property`-shaped members of the
`getmembers` view, minus those inherited unchanged from `BaseModel`. -/
def get_class_properties (cls : PyClass) : List PropertyInfo :=
  cls.members.filterMap fun nm =>
    match nm with
    | (name, Member.propMember p) =>
      if is_inherited_from_base_model cls name (Member.propMember p) then none
      else some (extract_property_info cls name p)
    | _ => none

/-! ## Class variables -/

/-- One class-variable descriptor. -/
structure VarInfo where
  vname : String
  vtype : String
  value : Option String
  descr : String
  is_protected : Bool
  is_private : Bool
  is_redefined : Bool
deriving DecidableEq, Repr

/-- `_get_base_attributes`: the union of the direct bases' attribute
names (a set in the source; only membership is consumed). -/
def get_base_attributes (cls : PyClass) : List String :=
  cls.bases.foldl (fun acc b => acc ++ b.attrs.map Prod.fst) []

/-- `_should_skip_variable` (its `base_attrs` argument is accepted and
unused, as in the source). -/
def should_skip_variable (name : String) (value : Member) (base_attrs : List String) : Bool :=
  (str_startswith name "__" && str_endswith name "__") ||
  (match value with | .func _ => true | _ => false) ||
  (match value with
   | .propMember _ => true | .cmethodObj _ => true | .smethodObj _ => true
   | _ => false) ||
  abc_attrs.contains name ||
  base_model_attr_names.contains name

/-- `str(type(value))` of a namespace value. -/
def memberTypeName : Member → String
  | .plain v => v.typeName
  | .boundMethod _ => "<class 'method'>"
  | .func _ => "<class 'function'>"
  | .cmethodObj _ => "<class 'classmethod'>"
  | .smethodObj _ => "<class 'staticmethod'>"
  | .propMember _ => "<class 'property'>"

/-- `str(value) if not callable(value) else None` for a namespace
value. -/
def varValue : Member → Option String
  | .plain v => if v.isCallable then none else some v.reprStr
  | .boundMethod _ => none
  | .func _ => none
  | .cmethodObj _ => none
  | .smethodObj _ => none
  | .propMember p => some ((fun _ => "<property object>") p)

/-- `_get_class_variables`: walk the own namespace `vars(cls)`, skip
filtered names, and mark an entry redefined exactly when its name is
absent from every direct base's attribute names. -/
def get_class_variables (cls : PyClass) : List VarInfo :=
  let base_attrs := get_base_attributes cls
  cls.cdict.filterMap fun nv =>
    if should_skip_variable nv.1 nv.2 base_attrs then none
    else
      some { vname := nv.1
             vtype := (List.lookup nv.1 cls.typeHints).getD (memberTypeName nv.2)
             value := varValue nv.2
             descr := ""
             is_protected := str_startswith nv.1 "_" && !(str_startswith nv.1 "__")
             is_private := str_startswith nv.1 "__"
             is_redefined := !(base_attrs.contains nv.1) }

/-! ## Field extraction -/

/-- One pydantic field descriptor. -/
structure PydFieldInfo where
  fname : String
  ftype : String
  default : Option String
  default_factory : Option String
  descr : String
  required : Bool
deriving DecidableEq, Repr

/-- `_extract_pydantic_fields`: the `default` key is emitted whenever
`field.default is not None` (so the `PydanticUndefined` sentinel of an
unset default is stringified and emitted); the factory is emitted when
truthy. -/
def extract_pydantic_fields (cls : PyClass) : List PydFieldInfo :=
  if !cls.is_pydantic_c then []
  else
    cls.modelFields.map fun nf =>
      { fname := nf.1
        ftype := nf.2.ann
        default := if nf.2.default ≠ PydDefault.pyNone then some nf.2.default.strOf else none
        default_factory := nf.2.default_factory
        descr := nf.2.descr.getD ""
        required := nf.2.is_required }

/-- One dataclass field descriptor (no `required` key). -/
structure DcFieldInfo where
  fname : String
  ftype : String
  default : Option String
  default_factory : Option String
  descr : String
deriving DecidableEq, Repr

/-- `_extract_dataclass_fields`: both slots are compared against
`inspect.Parameter.empty` (not the `dataclasses.MISSING` sentinel an
unset slot actually carries). -/
def extract_dataclass_fields (cls : PyClass) : List DcFieldInfo :=
  if !cls.is_dataclass_c then []
  else
    cls.dcFields.map fun f =>
      { fname := f.fldName
        ftype := f.fldType
        default := if f.default ≠ DcDefault.paramEmpty then some f.default.strOf else none
        default_factory :=
          if f.default_factory ≠ DcDefault.paramEmpty then some f.default_factory.strOf else none
        descr := "" }

/-- The field list of a class descriptor (pydantic-shaped,
dataclass-shaped, or empty). -/
inductive FieldList where
  | pydF (fs : List PydFieldInfo)
  | dcF (fs : List DcFieldInfo)
  | noF
deriving DecidableEq, Repr

/-- `_get_class_fields`: dispatch on class kind. -/
def get_class_fields (cls : PyClass) : FieldList :=
  if cls.is_pydantic_c then FieldList.pydF (extract_pydantic_fields cls)
  else if cls.is_dataclass_c then FieldList.dcF (extract_dataclass_fields cls)
  else FieldList.noF

/-! ## Class assembly and batch state -/

/-- `_has_abc_base`. -/
def has_abc_base (cls : PyClass) : Bool :=
  cls.bases.any fun b => b.modName = "abc" && b.bname = "ABC"

/-- One full class descriptor. -/
structure ClassInfo where
  cname : String
  descr : String
  is_abstract : Bool
  is_dataclass : Bool
  is_pydantic : Bool
  parent_classes : List String
  methods : List MethodInfo
  properties : List PropertyInfo
  fields : FieldList
  class_variables : List VarInfo
deriving DecidableEq, Repr

/-- `_get_basic_class_info` merged with `_build_class_info` (the source
spreads the former into the latter's dictionary). -/
def build_class_info (cls : PyClass) : Option ClassInfo :=
  match get_class_methods cls with
  | none => none
  | some ms =>
    some { cname := cls.cname
           descr := cls.doc.getD ""
           is_abstract := cls.is_abstract_rt || has_abc_base cls
           is_dataclass := cls.is_dataclass_c
           is_pydantic := cls.is_pydantic_c
           parent_classes := (cls.bases.filter (fun b => !b.isObject)).map (fun b => b.bname)
           methods := ms
           properties := get_class_properties cls
           fields := get_class_fields cls
           class_variables := get_class_variables cls }

/-- The per-class output: a full descriptor or the two-key stub
`{"name": ..., "description": "Already processed"}`. -/
inductive ClsResult where
  | stub (nm : String)
  | full (info : ClassInfo)
deriving DecidableEq, Repr

/-- `_analyze_class` together with the `_seen_classes` set of the
analyzer instance (threaded explicitly). -/
def analyze_class (seen : List PyClass) (cls : PyClass) :
    Option (ClsResult × List PyClass) :=
  if seen.contains cls then some (ClsResult.stub cls.cname, seen)
  else
    match build_class_info cls with
    | none => none
    | some i => some (ClsResult.full i, cls :: seen)

/-- `analyze`: one result per requested class, in input order, threading
the seen-classes state. -/
def analyze (seen : List PyClass) : List PyClass → Option (List ClsResult × List PyClass)
  | [] => some ([], seen)
  | c :: cs =>
    match analyze_class seen c with
    | none => none
    | some (r, seen') =>
      match analyze seen' cs with
      | none => none
      | some (rs, seen'') => some (r :: rs, seen'')

/-! ## JSON serialization

`to_json` runs `json.dumps(self.analyze(*classes), indent=2,
ensure_ascii=False)`.  The analyzer only ever emits nulls, booleans,
strings, arrays and objects, so we model that JSON fragment, render it
with the exact layout `json.dumps` uses for `indent=2` (item separator
`",\n"`, key separator `": "`, non-ASCII text kept verbatim, `"`, `\`
and control characters escaped), and give a parser to state the
round-trip property. -/

inductive Json where
  | null
  | bool (b : Bool)
  | str (s : String)
  | arr (xs : List Json)
  | obj (kvs : List (String × Json))

/-- Lowercase hexadecimal digit, as `"\u%04x"` formatting uses. -/
def hexDigit (n : Nat) : Char :=
  if n < 10 then Char.ofNat (48 + n) else Char.ofNat (87 + n)

/-- Escaping of one character inside a string literal
(`ensure_ascii=False`): only `"`, `\` and control characters are
escaped, the latter by short escapes where they exist and `\u00xx`
otherwise. -/
def escapeChar (c : Char) : List Char :=
  if c = '"' then ['\\', '"']
  else if c = '\\' then ['\\', '\\']
  else if c = '\n' then ['\\', 'n']
  else if c = '\r' then ['\\', 'r']
  else if c = '\t' then ['\\', 't']
  else if c = '\x08' then ['\\', 'b']
  else if c = '\x0c' then ['\\', 'f']
  else if c.toNat < 32 then
    ['\\', 'u', '0', '0', hexDigit (c.toNat / 16), hexDigit (c.toNat % 16)]
  else [c]

def escapeStr : List Char → List Char
  | [] => []
  | c :: t => escapeChar c ++ escapeStr t

/-- A rendered string literal. -/
def quoteStr (s : List Char) : List Char :=
  '"' :: escapeStr s ++ ['"']

/-- The indentation prefix at nesting depth `d` for `indent=2`. -/
def jIndent (d : Nat) : List Char :=
  List.replicate (2 * d) ' '

mutual
/-- The layout of `json.dumps(..., indent=2, ensure_ascii=False)`. -/
def renderJ : Json → Nat → List Char
  | Json.null, _ => 'n' :: 'u' :: 'l' :: 'l' :: []
  | Json.bool true, _ => 't' :: 'r' :: 'u' :: 'e' :: []
  | Json.bool false, _ => 'f' :: 'a' :: 'l' :: 's' :: 'e' :: []
  | Json.str s, _ => quoteStr s.data
  | Json.arr [], _ => '[' :: ']' :: []
  | Json.arr (x :: xs), d =>
    '[' :: '\n' :: (renderItems (x :: xs) (d + 1) ++ '\n' :: (jIndent d ++ [']']))
  | Json.obj [], _ => '\x7b' :: '\x7d' :: []
  | Json.obj (kv :: kvs), d =>
    '\x7b' :: '\n' :: (renderMembers (kv :: kvs) (d + 1) ++ '\n' :: (jIndent d ++ ['\x7d']))

def renderItems : List Json → Nat → List Char
  | [], _ => []
  | [x], d => jIndent d ++ renderJ x d
  | x :: y :: ys, d =>
    jIndent d ++ renderJ x d ++ ',' :: '\n' :: renderItems (y :: ys) d

def renderMembers : List (String × Json) → Nat → List Char
  | [], _ => []
  | [(k, v)], d => jIndent d ++ quoteStr k.data ++ ':' :: ' ' :: renderJ v d
  | (k, v) :: m :: ms, d =>
    jIndent d ++ quoteStr k.data ++ ':' :: ' ' :: renderJ v d ++ ',' :: '\n' :: renderMembers (m :: ms) d
end

/-- `json.dumps(x, indent=2, ensure_ascii=False)`. -/
def dumps (j : Json) : String :=
  String.mk (renderJ j 0)

/-! A JSON parser for the emitted fragment, to state the round trip. -/

/-- JSON insignificant whitespace. -/
def isJsonWs (c : Char) : Bool :=
  c = ' ' || c = '\t' || c = '\n' || c = '\r'

def skipWs : List Char → List Char
  | [] => []
  | c :: t => if isJsonWs c then skipWs t else c :: t

def hexVal (c : Char) : Option Nat :=
  if '0' ≤ c && c ≤ '9' then some (c.toNat - 48)
  else if 'a' ≤ c && c ≤ 'f' then some (c.toNat - 87)
  else if 'A' ≤ c && c ≤ 'F' then some (c.toNat - 55)
  else none

def unescapeChar (e : Char) : Option Char :=
  if e = '"' then some '"'
  else if e = '\\' then some '\\'
  else if e = '/' then some '/'
  else if e = 'n' then some '\n'
  else if e = 'r' then some '\r'
  else if e = 't' then some '\t'
  else if e = 'b' then some '\x08'
  else if e = 'f' then some '\x0c'
  else none

/-- Parse the body of a string literal up to its closing quote. -/
def parseStrBody : List Char → Option (List Char × List Char)
  | [] => none
  | c :: t =>
    if c = '"' then some ([], t)
    else if c = '\\' then
      match t with
      | 'u' :: h1 :: h2 :: h3 :: h4 :: t2 =>
        match hexVal h1, hexVal h2, hexVal h3, hexVal h4 with
        | some a, some b, some c3, some d =>
          match parseStrBody t2 with
          | some (s, r) => some (Char.ofNat (((a * 16 + b) * 16 + c3) * 16 + d) :: s, r)
          | none => none
        | _, _, _, _ => none
      | e :: t2 =>
        match unescapeChar e with
        | some ce =>
          match parseStrBody t2 with
          | some (s, r) => some (ce :: s, r)
          | none => none
        | none => none
      | [] => none
    else
      match parseStrBody t with
      | some (s, r) => some (c :: s, r)
      | none => none

mutual
def parseV : Nat → List Char → Option (Json × List Char)
  | 0, _ => none
  | fuel + 1, s =>
    match skipWs s with
    | [] => none
    | c :: t =>
      if c = '"' then
        match parseStrBody t with
        | some (cs, r) => some (Json.str (String.mk cs), r)
        | none => none
      else if c = 'n' then
        match t with
        | 'u' :: 'l' :: 'l' :: r => some (Json.null, r)
        | _ => none
      else if c = 't' then
        match t with
        | 'r' :: 'u' :: 'e' :: r => some (Json.bool true, r)
        | _ => none
      else if c = 'f' then
        match t with
        | 'a' :: 'l' :: 's' :: 'e' :: r => some (Json.bool false, r)
        | _ => none
      else if c = '[' then
        let u := skipWs t
        if u.head? = some ']' then some (Json.arr [], u.tail)
        else
          match parseElems fuel u with
          | some (xs, r) => some (Json.arr xs, r)
          | none => none
      else if c = '\x7b' then
        let u := skipWs t
        if u.head? = some '\x7d' then some (Json.obj [], u.tail)
        else
          match parseMembers fuel u with
          | some (ms, r) => some (Json.obj ms, r)
          | none => none
      else none

def parseElems : Nat → List Char → Option (List Json × List Char)
  | 0, _ => none
  | fuel + 1, s =>
    match parseV fuel s with
    | none => none
    | some (j, r) =>
      let w := skipWs r
      if w.head? = some ',' then
        match parseElems fuel w.tail with
        | some (js, r3) => some (j :: js, r3)
        | none => none
      else if w.head? = some ']' then some ([j], w.tail)
      else none

def parseMembers : Nat → List Char → Option (List (String × Json) × List Char)
  | 0, _ => none
  | fuel + 1, s =>
    let u := skipWs s
    if u.head? = some '"' then
      match parseStrBody u.tail with
      | none => none
      | some (k, r) =>
        let w := skipWs r
        if w.head? = some ':' then
          match parseV fuel w.tail with
          | none => none
          | some (v, r3) =>
            let z := skipWs r3
            if z.head? = some ',' then
              match parseMembers fuel z.tail with
              | some (ms, r5) => some ((String.mk k, v) :: ms, r5)
              | none => none
            else if z.head? = some '\x7d' then some ([(String.mk k, v)], z.tail)
            else none
        else none
    else none
end

/-- Parse a complete JSON document (as `json.loads` would: one value,
then nothing but whitespace). -/
def loads (s : String) : Option Json :=
  match parseV (s.data.length + 1) s.data with
  | some (j, r) => if skipWs r = [] then some j else none
  | none => none

/-! ## Encoding descriptors as JSON values

The analyzer builds plain dictionaries; `json.dumps` serializes them in
insertion order.  Each encoder lists the keys in the order the source
inserts them (for `classmethod` / `staticmethod` the `"type"` update
rewrites an existing key in place, keeping its position). -/

def jopt : Option String → Json
  | some s => Json.str s
  | none => Json.null

def jstrs (l : List String) : Json :=
  Json.arr (l.map Json.str)

def encodeParam (p : ParamDesc) : Json :=
  Json.obj [("type", Json.str p.ptype), ("default", jopt p.dflt),
            ("description", Json.str p.descr)]

def encodeMethod (m : MethodInfo) : Json :=
  Json.obj [("name", Json.str m.mname),
            ("type", Json.str m.mtype),
            ("description", Json.str m.descr),
            ("is_abstract", Json.bool m.is_abstract),
            ("is_async", Json.bool m.is_async),
            ("is_protected", Json.bool m.is_protected),
            ("is_private", Json.bool m.is_private),
            ("is_magic", Json.bool m.is_magic),
            ("signature", Json.str m.signature),
            ("parameters", Json.obj (m.parameters.map (fun p => (p.1, encodeParam p.2)))),
            ("raises", jstrs m.raises),
            ("source", jopt m.source),
            ("is_redefined", Json.bool m.is_redefined),
            ("decorators", jstrs m.decorators)]

def encodeAccessor (a : AccessorInfo) : Json :=
  Json.obj [("description", Json.str a.descr),
            ("is_async", Json.bool a.is_async),
            ("raises", jstrs a.raises),
            ("signature", Json.str a.signature)]

def encodeProperty (p : PropertyInfo) : Json :=
  Json.obj
    ([("name", Json.str p.pname),
      ("description", Json.str p.descr),
      ("type", Json.str p.ptype),
      ("is_abstract", Json.bool p.is_abstract),
      ("is_protected", Json.bool p.is_protected),
      ("is_private", Json.bool p.is_private),
      ("signature", Json.str p.signature),
      ("source_getter", jopt p.source_getter),
      ("source_setter", jopt p.source_setter),
      ("is_redefined", Json.bool p.is_redefined)] ++
     (match p.getter with | some a => [("getter", encodeAccessor a)] | none => []) ++
     (match p.setter with | some a => [("setter", encodeAccessor a)] | none => []) ++
     (match p.deleter with | some a => [("deleter", encodeAccessor a)] | none => []))

def encodePydField (f : PydFieldInfo) : Json :=
  Json.obj [("name", Json.str f.fname),
            ("type", Json.str f.ftype),
            ("default", jopt f.default),
            ("default_factory", jopt f.default_factory),
            ("description", Json.str f.descr),
            ("required", Json.bool f.required)]

def encodeDcField (f : DcFieldInfo) : Json :=
  Json.obj [("name", Json.str f.fname),
            ("type", Json.str f.ftype),
            ("default", jopt f.default),
            ("default_factory", jopt f.default_factory),
            ("description", Json.str f.descr)]

def encodeFieldList : FieldList → Json
  | FieldList.pydF fs => Json.arr (fs.map encodePydField)
  | FieldList.dcF fs => Json.arr (fs.map encodeDcField)
  | FieldList.noF => Json.arr []

def encodeVar (v : VarInfo) : Json :=
  Json.obj [("name", Json.str v.vname),
            ("type", Json.str v.vtype),
            ("value", jopt v.value),
            ("description", Json.str v.descr),
            ("is_protected", Json.bool v.is_protected),
            ("is_private", Json.bool v.is_private),
            ("is_redefined", Json.bool v.is_redefined)]

def encodeClassInfo (i : ClassInfo) : Json :=
  Json.obj [("name", Json.str i.cname),
            ("description", Json.str i.descr),
            ("is_abstract", Json.bool i.is_abstract),
            ("is_dataclass", Json.bool i.is_dataclass),
            ("is_pydantic", Json.bool i.is_pydantic),
            ("parent_classes", jstrs i.parent_classes),
            ("methods", Json.arr (i.methods.map encodeMethod)),
            ("properties", Json.arr (i.properties.map encodeProperty)),
            ("fields", encodeFieldList i.fields),
            ("class_variables", Json.arr (i.class_variables.map encodeVar))]

def encodeResult : ClsResult → Json
  | ClsResult.stub n =>
    Json.obj [("name", Json.str n), ("description", Json.str "Already processed")]
  | ClsResult.full i => encodeClassInfo i

/-- The enclosing structure of `analyze`: its sole key holds the ordered
descriptor list. -/
def encodeAnalyze (rs : List ClsResult) : Json :=
  Json.obj [("classes", Json.arr (rs.map encodeResult))]

/-- `to_json`: serialize the analysis of the given classes (threading
the seen-classes state like `analyze`). -/
def to_json (seen : List PyClass) (classes : List PyClass) :
    Option (String × List PyClass) :=
  match analyze seen classes with
  | none => none
  | some (rs, seen') => some (dumps (encodeAnalyze rs), seen')

/-! ## Lemmas about the member pipeline -/

/-- The underlying function of a callable-descriptor member. -/
def memberFn : Member → Option PyFunc
  | Member.func f => some f
  | Member.boundMethod f => some f
  | Member.cmethodObj f => some f
  | Member.smethodObj f => some f
  | _ => none

theorem skip_false_both {cls : PyClass} {n : String} {m : Member}
    (h : should_skip_member cls n m = some false) :
    is_method_redefined cls n m = some true ∧ is_property_redefined cls n m = some true := by
  unfold should_skip_member at h
  split at h
  · simp at h
  · cases h1 : is_method_redefined cls n m with
    | none => rw [h1] at h; simp at h
    | some r1 =>
      rw [h1] at h
      cases r1 with
      | false => simp at h
      | true =>
        simp only [Bool.not_true, if_false, ite_false] at h
        cases h2 : is_property_redefined cls n m with
        | none => rw [h2] at h; simp at h
        | some r2 =>
          rw [h2] at h
          cases r2 with
          | false => simp at h
          | true => exact ⟨rfl, rfl⟩

theorem test_false_skip {cls : PyClass} {n : String} {m : Member}
    (h : is_method_redefined cls n m = some false ∨
         is_property_redefined cls n m = some false) :
    should_skip_member cls n m ≠ some false := by
  intro hc
  have both := skip_false_both hc
  cases h with
  | inl h1 => rw [both.1] at h1; simp at h1
  | inr h2 => rw [both.2] at h2; simp at h2

theorem get_class_methods_go_mem (cls : PyClass) :
    ∀ l ms, get_class_methods.go cls l = some ms → ∀ d ∈ ms,
      ∃ n m, (n, m) ∈ l ∧ should_skip_member cls n m = some false ∧
        ∃ f, memberFn m = some f ∧
          (d = process_method cls n f ∨
           d = { process_method cls n f with mtype := "classmethod" } ∨
           d = { process_method cls n f with mtype := "staticmethod" }) := by
  intro l
  induction l with
  | nil =>
    intro ms h d hd
    simp only [get_class_methods.go] at h
    cases h
    simp at hd
  | cons nm rest ih =>
    intro ms h d hd
    obtain ⟨n, m⟩ := nm
    simp only [get_class_methods.go] at h
    cases hskip : should_skip_member cls n m with
    | none => rw [hskip] at h; simp at h
    | some skip =>
      rw [hskip] at h
      cases htail : get_class_methods.go cls rest with
      | none => rw [htail] at h; simp at h
      | some tail =>
        rw [htail] at h
        have tailcase : d ∈ tail →
            ∃ n' m', (n', m') ∈ (n, m) :: rest ∧
              should_skip_member cls n' m' = some false ∧
              ∃ f, memberFn m' = some f ∧
                (d = process_method cls n' f ∨
                 d = { process_method cls n' f with mtype := "classmethod" } ∨
                 d = { process_method cls n' f with mtype := "staticmethod" }) := by
          intro hdt
          obtain ⟨n', m', hmem, hrest⟩ := ih tail htail d hdt
          exact ⟨n', m', List.mem_cons_of_mem _ hmem, hrest⟩
        cases skip with
        | true =>
          simp only [ite_true] at h
          cases h
          exact tailcase hd
        | false =>
          simp only [ite_false] at h
          cases m with
          | func f =>
            cases h
            cases hd with
            | head => exact ⟨n, Member.func f, List.mem_cons_self _ _, hskip,
                f, rfl, Or.inl rfl⟩
            | tail _ hdt => exact tailcase hdt
          | boundMethod f =>
            cases h
            cases hd with
            | head => exact ⟨n, Member.boundMethod f, List.mem_cons_self _ _, hskip,
                f, rfl, Or.inl rfl⟩
            | tail _ hdt => exact tailcase hdt
          | cmethodObj f =>
            cases h
            cases hd with
            | head => exact ⟨n, Member.cmethodObj f, List.mem_cons_self _ _, hskip,
                f, rfl, Or.inr (Or.inl rfl)⟩
            | tail _ hdt => exact tailcase hdt
          | smethodObj f =>
            cases h
            cases hd with
            | head => exact ⟨n, Member.smethodObj f, List.mem_cons_self _ _, hskip,
                f, rfl, Or.inr (Or.inr rfl)⟩
            | tail _ hdt => exact tailcase hdt
          | propMember p =>
            cases h
            exact tailcase hd
          | plain v =>
            cases h
            exact tailcase hd

theorem build_class_info_parts {cls : PyClass} {info : ClassInfo}
    (h : build_class_info cls = some info) :
    get_class_methods cls = some info.methods ∧ info.cname = cls.cname := by
  unfold build_class_info at h
  cases hm : get_class_methods cls with
  | none => rw [hm] at h; simp at h
  | some ms =>
    rw [hm] at h
    cases h
    exact ⟨rfl, rfl⟩

theorem analyze_full_from_build :
    ∀ cs seen rs s', analyze seen cs = some (rs, s') → ∀ r ∈ rs,
      (∃ n, r = ClsResult.stub n) ∨
      (∃ cls info, build_class_info cls = some info ∧ r = ClsResult.full info) := by
  intro cs
  induction cs with
  | nil =>
    intro seen rs s' h r hr
    simp only [analyze] at h
    cases h
    simp at hr
  | cons c cs ih =>
    intro seen rs s' h r hr
    simp only [analyze] at h
    cases hc : analyze_class seen c with
    | none => rw [hc] at h; simp at h
    | some p =>
      obtain ⟨r1, seen1⟩ := p
      rw [hc] at h
      dsimp only at h
      cases ht : analyze seen1 cs with
      | none => rw [ht] at h; simp at h
      | some q =>
        obtain ⟨rs1, seen2⟩ := q
        rw [ht] at h
        dsimp only at h
        cases h
        cases hr with
        | head =>
          unfold analyze_class at hc
          split at hc
          · cases hc; exact Or.inl ⟨c.cname, rfl⟩
          · cases hb : build_class_info c with
            | none => rw [hb] at hc; simp at hc
            | some info =>
              rw [hb] at hc
              cases hc
              exact Or.inr ⟨c, info, hb, rfl⟩
        | tail _ hrt => exact ih seen1 rs1 _ ht r hrt

/-- C1.  Inclusion in the output method list requires passing both
redefinition tests: every emitted descriptor stems from a member whose
callable test and property test both returned redefined, and a member
for which either test reports not-redefined is never let through the
skip filter, whatever its kind. -/
theorem claim_C1 : ∀ cls ms, get_class_methods cls = some ms →
    (∀ d ∈ ms, ∃ n m, (n, m) ∈ cls.members ∧
       is_method_redefined cls n m = some true ∧
       is_property_redefined cls n m = some true) ∧
    (∀ n m, (is_method_redefined cls n m = some false ∨
             is_property_redefined cls n m = some false) →
       should_skip_member cls n m ≠ some false) := by
  intro cls ms h
  constructor
  · intro d hd
    obtain ⟨n, m, hmem, hskip, -⟩ := get_class_methods_go_mem cls cls.members ms h d hd
    exact ⟨n, m, hmem, skip_false_both hskip⟩
  · intro n m hor
    exact test_false_skip hor

/-- A function object used by concrete witnesses. -/
def wfunc : PyFunc :=
  { fname := "foo", code := { co_code := [1, 2] }, doc := none,
    is_abstract_m := false, is_async_f := false, modName := "w",
    qualname := "W.foo", src := some "def foo(self): pass", sig := none }

/-- A class declaring `foo` directly in its own namespace. -/
def wcls : PyClass :=
  { cname := "W", doc := none,
    cdict := [("foo", Member.func wfunc)],
    members := [("foo", Member.func wfunc)],
    bases := [], is_abstract_rt := false, is_dataclass_c := false,
    is_pydantic_c := false, typeHints := [], srcOut := SourceOutcome.noSource,
    modelFields := [], dcFields := [] }

theorem claim_C1_witness :
    ∃ n m, (n, m) ∈ wcls.members ∧
      is_method_redefined wcls n m = some true ∧
      is_property_redefined wcls n m = some true :=
  (claim_C1 wcls [process_method wcls "foo" wfunc] rfl).1
    (process_method wcls "foo" wfunc) (List.mem_singleton.mpr rfl)

/-- C4.  No method descriptor produced by `analyze` is simultaneously
magic and private: the magic-set test wins and switches the private flag
off. -/
theorem claim_C4 : ∀ seen cs rs s', analyze seen cs = some (rs, s') →
    ∀ r ∈ rs, ∀ info, r = ClsResult.full info →
      ∀ m ∈ info.methods, ¬(m.is_magic = true ∧ m.is_private = true) := by
  intro seen cs rs s' h r hr info hrfull m hm
  rcases analyze_full_from_build cs seen rs s' h r hr with ⟨n, hstub⟩ | ⟨cls, info', hb, hfull⟩
  · rw [hstub] at hrfull; cases hrfull
  · rw [hfull] at hrfull
    cases hrfull
    have hms := (build_class_info_parts hb).1
    obtain ⟨n, mem, -, -, f, -, hshape⟩ :=
      get_class_methods_go_mem cls cls.members info.methods hms m hm
    have base : ¬((process_method cls n f).is_magic = true ∧
        (process_method cls n f).is_private = true) := by
      simp only [process_method]
      cases hmg : magic_methods.contains (if f.fname ≠ "" then f.fname else n) <;> simp [hmg]
    rcases hshape with h1 | h1 | h1 <;> rw [h1]
    · exact base
    · simpa using base
    · simpa using base

/-- A function defining the magic `__eq__` name. -/
def eqfunc : PyFunc :=
  { fname := "__eq__", code := { co_code := [7] }, doc := none,
    is_abstract_m := false, is_async_f := false, modName := "w",
    qualname := "W4.__eq__", src := none, sig := none }

/-- A class declaring `__eq__` directly. -/
def wcls4 : PyClass :=
  { cname := "W4", doc := none,
    cdict := [("__eq__", Member.func eqfunc)],
    members := [("__eq__", Member.func eqfunc)],
    bases := [], is_abstract_rt := false, is_dataclass_c := false,
    is_pydantic_c := false, typeHints := [], srcOut := SourceOutcome.noSource,
    modelFields := [], dcFields := [] }

theorem claim_C4_witness :
    ¬((process_method wcls4 "__eq__" eqfunc).is_magic = true ∧
      (process_method wcls4 "__eq__" eqfunc).is_private = true) :=
  claim_C4 [] [wcls4] _ _ rfl _ (List.mem_singleton.mpr rfl) _ rfl
    (process_method wcls4 "__eq__" eqfunc) (List.mem_singleton.mpr rfl)

/-- C7.  Introspection failures degrade to sentinels instead of
propagating: a failed signature introspection reports `"()"`, a failed
source retrieval reports an absent source (whether or not the member is
redefined), and a class whose source is unavailable or unparseable gets
an empty decorator list for every method. -/
theorem claim_C7 :
    (∀ f : PyFunc, f.sig = none → get_method_signature f = "()") ∧
    (∀ (cls : PyClass) (name : String) (f : PyFunc), f.src = none →
       (process_method cls name f).source = none) ∧
    (∀ (cls : PyClass) (m : String),
       cls.srcOut = SourceOutcome.noSource ∨ cls.srcOut = SourceOutcome.unparseable →
       get_method_decorators cls m = []) := by
  refine ⟨?_, ?_, ?_⟩
  · intro f h
    unfold get_method_signature
    rw [h]
  · intro cls name f h
    simp only [process_method, get_method_source]
    rw [h]
    cases is_method_redefined_fn cls name f <;> simp
  · intro cls m h
    unfold get_method_decorators
    cases h with
    | inl h => rw [h]
    | inr h => rw [h]

/-- A function with failing signature and source introspection. -/
def failfunc : PyFunc :=
  { fname := "g", code := { co_code := [9] }, doc := none,
    is_abstract_m := false, is_async_f := false, modName := "w",
    qualname := "W.g", src := none, sig := none }

theorem claim_C7_witness :
    get_method_signature failfunc = "()" ∧
    (process_method wcls "g" failfunc).source = none ∧
    get_method_decorators wcls "g" = [] :=
  ⟨claim_C7.1 failfunc rfl,
   claim_C7.2.1 wcls "g" failfunc rfl,
   claim_C7.2.2 wcls "g" (Or.inl rfl)⟩

/-- Is this node a synchronous function definition with the given
name? -/
def isSyncDefNamed (node : AstNode) (m : String) : Bool :=
  match node with
  | AstNode.funcDef nm _ => nm = m
  | _ => false

/-- C10.  A method whose definitions in the class source are all
`async def` gets an empty decorator list even when the source is
available and parses: the walk only matches synchronous
function-definition nodes. -/
theorem claim_C10 : ∀ (cls : PyClass) (walk : List AstNode) (m : String),
    cls.srcOut = SourceOutcome.parsed walk →
    (∀ node ∈ walk, isSyncDefNamed node m = false) →
    get_method_decorators cls m = [] := by
  intro cls walk m hsrc hnone
  unfold get_method_decorators
  rw [hsrc]
  clear hsrc
  induction walk with
  | nil => rfl
  | cons node rest ih =>
    have hnode := hnone node (List.mem_cons_self _ _)
    have hrest : ∀ n ∈ rest, isSyncDefNamed n m = false :=
      fun n hn => hnone n (List.mem_cons_of_mem _ hn)
    cases node with
    | funcDef nm decs =>
      simp only [isSyncDefNamed, decide_eq_false_iff_not] at hnode
      simp only [findDecorators, if_neg hnode]
      exact ih hrest
    | asyncFuncDef nm decs =>
      simp only [findDecorators]
      exact ih hrest
    | otherNode =>
      simp only [findDecorators]
      exact ih hrest

/-- A class whose source parses and contains one decorated asynchronous
definition of `m` (and nothing else defining `m`). -/
def asyncCls : PyClass :=
  { cname := "AC", doc := none, cdict := [], members := [],
    bases := [], is_abstract_rt := false, is_dataclass_c := false,
    is_pydantic_c := false, typeHints := [],
    srcOut := SourceOutcome.parsed
      [AstNode.otherNode,
       AstNode.asyncFuncDef "m" [DecExpr.nameE "route", DecExpr.callE (DecExpr.attrE "wraps")]],
    modelFields := [], dcFields := [] }

theorem claim_C10_witness : get_method_decorators asyncCls "m" = [] :=
  claim_C10 asyncCls
    [AstNode.otherNode,
     AstNode.asyncFuncDef "m" [DecExpr.nameE "route", DecExpr.callE (DecExpr.attrE "wraps")]]
    "m" rfl (by decide)

/-! ## C3: inherited methods and the joint filter -/

/-- The base attribute the redefinition loop actually compares against:
the first direct base exposing the name as a plain function (bases
exposing it with another shape are passed over). -/
def first_function_base (name : String) : List PyBase → Option PyFunc
  | [] => none
  | b :: bs =>
    match List.lookup name b.attrs with
    | some (Member.func bf) => some bf
    | _ => first_function_base name bs

/-- Declarative reading of the callable redefinition test for a name not
declared in the class namespace: redefined iff the first direct base
exposing the name as a plain function carries a differing compiled
body. -/
def method_redefined_spec (cls : PyClass) (name : String) (f : PyFunc) : Bool :=
  match first_function_base name cls.bases with
  | some bf => f.code.co_code ≠ bf.code.co_code
  | none => false

/-- C3 (amended).  A plain method not declared in the class's own
namespace never passes the property-redefinition half of the joint
filter, so it never reaches the output; internally the callable test
compares against the first function-shaped base attribute only, and a
source capture is attempted exactly when that test reports
redefined. -/
theorem claim_C3 : ∀ (cls : PyClass) (name : String) (f : PyFunc),
    (name ∉ cls.dictNames →
       is_property_redefined cls name (Member.func f) ≠ some true ∧
       should_skip_member cls name (Member.func f) ≠ some false) ∧
    (name ∉ cls.dictNames →
       is_method_redefined_fn cls name f = method_redefined_spec cls name f) ∧
    ((process_method cls name f).source =
       if is_method_redefined_fn cls name f then f.src else none) := by
  intro cls name f
  have hprop : name ∉ cls.dictNames →
      is_property_redefined cls name (Member.func f) ≠ some true := by
    intro hnd
    unfold is_property_redefined
    rw [if_neg hnd]
    induction cls.bases with
    | nil => simp [is_property_redefined.go]
    | cons b bs ih =>
      simp only [is_property_redefined.go]
      cases List.lookup name b.attrs with
      | none => exact ih
      | some m =>
        cases m with
        | propMember bp => simp [memberFget]
        | func bf => exact ih
        | boundMethod bf => exact ih
        | cmethodObj bf => exact ih
        | smethodObj bf => exact ih
        | plain v => exact ih
  refine ⟨fun hnd => ⟨hprop hnd, ?_⟩, fun hnd => ?_, ?_⟩
  · intro hc
    exact hprop hnd (skip_false_both hc).2
  · unfold is_method_redefined_fn method_redefined_spec
    rw [if_neg hnd]
    induction cls.bases with
    | nil => rfl
    | cons b bs ih =>
      simp only [is_method_redefined_fn.go, first_function_base]
      cases List.lookup name b.attrs with
      | none => exact ih
      | some m =>
        cases m with
        | func bf => simp
        | boundMethod bf => exact ih
        | cmethodObj bf => exact ih
        | smethodObj bf => exact ih
        | propMember p => exact ih
        | plain v => exact ih
  · rfl

def f1c : PyFunc :=
  { fname := "m", code := { co_code := [1] }, doc := none,
    is_abstract_m := false, is_async_f := false, modName := "mod",
    qualname := "A.m", src := some "def m(self): return 1", sig := none }

def f2c : PyFunc :=
  { fname := "m", code := { co_code := [2] }, doc := none,
    is_abstract_m := false, is_async_f := false, modName := "mod",
    qualname := "B.m", src := some "def m(self): return 2", sig := none }

def baseA : PyBase :=
  { bname := "A", modName := "mod", isObject := false,
    attrs := [("m", Member.func f1c)] }

def baseB : PyBase :=
  { bname := "B", modName := "mod", isObject := false,
    attrs := [("m", Member.func f2c)] }

/-- A class inheriting `m` (resolved from the first base) with a second
direct base exposing a differing compiled body for `m`. -/
def ccl : PyClass :=
  { cname := "C", doc := none, cdict := [],
    members := [("m", Member.func f1c)],
    bases := [baseA, baseB], is_abstract_rt := false, is_dataclass_c := false,
    is_pydantic_c := false, typeHints := [], srcOut := SourceOutcome.noSource,
    modelFields := [], dcFields := [] }

/-- C3 counterexample.  `m` is not declared in `C`, a direct base (`B`)
exposes `m` with a differing compiled body, yet the output method list
is empty: no descriptor for `m` (with any `is_redefined` value) is
produced. -/
theorem claim_C3_cex :
    ("m" ∉ ccl.dictNames) ∧
    ("m", Member.func f1c) ∈ ccl.members ∧
    (∃ b ∈ ccl.bases, ∃ bf, List.lookup "m" b.attrs = some (Member.func bf) ∧
       bf.code.co_code ≠ f1c.code.co_code) ∧
    get_class_methods ccl = some [] := by
  refine ⟨by decide, by decide, ⟨baseB, by decide, f2c, by decide, by decide⟩, rfl⟩

theorem claim_C3_witness :
    (is_property_redefined ccl "m" (Member.func f1c) ≠ some true ∧
     should_skip_member ccl "m" (Member.func f1c) ≠ some false) ∧
    is_method_redefined_fn ccl "m" f1c = method_redefined_spec ccl "m" f1c ∧
    (process_method ccl "m" f1c).source =
      (if is_method_redefined_fn ccl "m" f1c then f1c.src else none) :=
  ⟨(claim_C3 ccl "m" f1c).1 (by decide),
   (claim_C3 ccl "m" f1c).2.1 (by decide),
   (claim_C3 ccl "m" f1c).2.2⟩

/-! ## C5: field defaults -/

/-- A record-type class with one field declaring neither a default nor a
default factory (both slots carry `dataclasses.MISSING`). -/
def dcCls : PyClass :=
  { cname := "D", doc := none, cdict := [], members := [],
    bases := [], is_abstract_rt := false, is_dataclass_c := true,
    is_pydantic_c := false, typeHints := [], srcOut := SourceOutcome.noSource,
    modelFields := [],
    dcFields := [{ fldName := "x", fldType := "<class 'int'>",
                   default := DcDefault.missing,
                   default_factory := DcDefault.missing }] }

/-- C5 evaluated at the failing input.  The extractor compares both
slots against `inspect.Parameter.empty`, which `dataclasses.MISSING` is
not, so a field with no default and no factory still gets both entries
emitted (as the stringified sentinel) instead of the absent values the
claim requires. -/
theorem claim_C5_bug :
    extract_dataclass_fields dcCls =
      [{ fname := "x", ftype := "<class 'int'>",
         default := some "<dataclasses._MISSING_TYPE object>",
         default_factory := some "<dataclasses._MISSING_TYPE object>",
         descr := "" }] := rfl

/-! ## C6: class-variable redefinition flag -/

/-- C6 (amended).  Every emitted class-variable descriptor carries a
name re-declared in the class's own namespace (names not re-declared are
never listed), and its `is_redefined` flag is true exactly when the name
is absent from every direct base's attribute names — so re-declaring a
name that a base also exposes yields `is_redefined = false`. -/
theorem claim_C6 : ∀ cls, ∀ v ∈ get_class_variables cls,
    (v.is_redefined = true ↔ v.vname ∉ get_base_attributes cls) ∧
    v.vname ∈ cls.dictNames := by
  intro cls v hv
  unfold get_class_variables at hv
  rw [List.mem_filterMap] at hv
  obtain ⟨nv, hmem, hf⟩ := hv
  by_cases hskip : should_skip_variable nv.1 nv.2 (get_base_attributes cls)
  · rw [if_pos hskip] at hf; cases hf
  · rw [if_neg hskip] at hf
    cases hf
    constructor
    · simp [List.elem_iff, List.contains]
    · exact List.mem_map.mpr ⟨nv, hmem, rfl⟩

def vbase : PyBase :=
  { bname := "A", modName := "mod", isObject := false,
    attrs := [("x", Member.plain { reprStr := "1", typeName := "<class 'int'>",
                                   isCallable := false })] }

/-- A class re-declaring, in its own namespace, the variable `x` that
its direct base also carries (with a different value). -/
def vcls : PyClass :=
  { cname := "B", doc := none,
    cdict := [("x", Member.plain { reprStr := "2", typeName := "<class 'int'>",
                                   isCallable := false })],
    members := [], bases := [vbase], is_abstract_rt := false,
    is_dataclass_c := false, is_pydantic_c := false, typeHints := [],
    srcOut := SourceOutcome.noSource, modelFields := [], dcFields := [] }

/-- C6 counterexample.  `x` is re-declared in the class's own namespace
and a direct base exposes the same name, yet the emitted descriptor
reports `is_redefined = false`, against the claim's "re-declaring it
with the same or different value marks it redefined". -/
theorem claim_C6_cex :
    "x" ∈ vcls.dictNames ∧
    vbase ∈ vcls.bases ∧ (List.lookup "x" vbase.attrs).isSome ∧
    (get_class_variables vcls).map (fun v => (v.vname, v.is_redefined)) =
      [("x", false)] := by
  refine ⟨by decide, by decide, by decide, rfl⟩

/-- The concrete descriptor `get_class_variables` emits for `vcls`. -/
def vinfo : VarInfo :=
  { vname := "x", vtype := "<class 'int'>", value := some "2", descr := "",
    is_protected := false, is_private := false, is_redefined := false }

theorem claim_C6_witness :
    (vinfo.is_redefined = true ↔ vinfo.vname ∉ get_base_attributes vcls) ∧
    vinfo.vname ∈ vcls.dictNames :=
  claim_C6 vcls vinfo
    (by rw [show get_class_variables vcls = [vinfo] from rfl]; exact List.mem_singleton.mpr rfl)

/-! ## C2: batch memoization -/

theorem contains_iff_mem (l : List PyClass) (c : PyClass) :
    l.contains c = true ↔ c ∈ l := by
  simp [List.contains, List.elem_iff]

theorem analyze_spec : ∀ (cs seen : List PyClass) rs s',
    analyze seen cs = some (rs, s') →
    rs.length = cs.length ∧
    ∀ i (hi : i < cs.length) (hj : i < rs.length),
      ((cs.get ⟨i, hi⟩ ∈ seen ∨ cs.get ⟨i, hi⟩ ∈ cs.take i) →
         rs.get ⟨i, hj⟩ = ClsResult.stub (cs.get ⟨i, hi⟩).cname) ∧
      ((cs.get ⟨i, hi⟩ ∉ seen ∧ cs.get ⟨i, hi⟩ ∉ cs.take i) →
         ∃ info, build_class_info (cs.get ⟨i, hi⟩) = some info ∧
           rs.get ⟨i, hj⟩ = ClsResult.full info) := by
  intro cs
  induction cs with
  | nil =>
    intro seen rs s' h
    simp only [analyze] at h
    cases h
    exact ⟨rfl, fun i hi => absurd hi (Nat.not_lt_zero i)⟩
  | cons c cs ih =>
    intro seen rs s' h
    simp only [analyze] at h
    cases hc : analyze_class seen c with
    | none => rw [hc] at h; simp at h
    | some p =>
      obtain ⟨r1, seen1⟩ := p
      rw [hc] at h
      dsimp only at h
      cases ht : analyze seen1 cs with
      | none => rw [ht] at h; simp at h
      | some q =>
        obtain ⟨rs1, s1⟩ := q
        rw [ht] at h
        dsimp only at h
        cases h
        obtain ⟨hlen, hpt⟩ := ih seen1 rs1 _ ht
        refine ⟨by simp [hlen], ?_⟩
        intro i hi hj
        unfold analyze_class at hc
        by_cases hmem : c ∈ seen
        · rw [if_pos ((contains_iff_mem seen c).mpr hmem)] at hc
          cases hc
          match i with
          | 0 =>
            refine ⟨fun _ => rfl, fun hno => absurd hmem hno.1⟩
          | Nat.succ k =>
            have hk : k < cs.length := Nat.lt_of_succ_lt_succ hi
            have hk2 : k < rs1.length := by omega
            have heqget : (c :: cs).get ⟨k + 1, hi⟩ = cs.get ⟨k, hk⟩ := rfl
            have htake : (c :: cs).take (k + 1) = c :: cs.take k := rfl
            constructor
            · intro hcond
              have : cs.get ⟨k, hk⟩ ∈ seen ∨ cs.get ⟨k, hk⟩ ∈ cs.take k := by
                rw [heqget, htake] at hcond
                rcases hcond with hs | hcc
                · exact Or.inl hs
                · rcases List.mem_cons.mp hcc with he | ht2
                  · exact Or.inl (he ▸ hmem)
                  · exact Or.inr ht2
              exact (hpt k hk hk2).1 this
            · intro hcond
              rw [heqget, htake] at hcond
              refine (hpt k hk hk2).2 ⟨fun hs => hcond.1 hs, fun ht2 => hcond.2 (List.mem_cons_of_mem _ ht2)⟩
        · rw [if_neg (fun hcont => hmem ((contains_iff_mem seen c).mp hcont))] at hc
          cases hb : build_class_info c with
          | none => rw [hb] at hc; simp at hc
          | some info =>
            rw [hb] at hc
            cases hc
            match i with
            | 0 =>
              refine ⟨?_, fun _ => ⟨info, hb, rfl⟩⟩
              intro hcond
              rcases hcond with hs | hcc
              · exact absurd hs hmem
              · simp at hcc
            | Nat.succ k =>
              have hk : k < cs.length := Nat.lt_of_succ_lt_succ hi
              have hk2 : k < rs1.length := by omega
              have heqget : (c :: cs).get ⟨k + 1, hi⟩ = cs.get ⟨k, hk⟩ := rfl
              have htake : (c :: cs).take (k + 1) = c :: cs.take k := rfl
              constructor
              · intro hcond
                rw [heqget, htake] at hcond
                have : cs.get ⟨k, hk⟩ ∈ (c :: seen) ∨ cs.get ⟨k, hk⟩ ∈ cs.take k := by
                  rcases hcond with hs | hcc
                  · exact Or.inl (List.mem_cons_of_mem _ hs)
                  · rcases List.mem_cons.mp hcc with he | ht2
                    · exact Or.inl (he ▸ List.mem_cons_self c seen)
                    · exact Or.inr ht2
                exact (hpt k hk hk2).1 this
              · intro hcond
                rw [heqget, htake] at hcond
                refine (hpt k hk hk2).2 ⟨?_, fun ht2 => hcond.2 (List.mem_cons_of_mem _ ht2)⟩
                intro hs
                rcases List.mem_cons.mp hs with he | ht3
                · exact hcond.2 (htake ▸ (he ▸ List.mem_cons_self c (cs.take k)))
                · exact hcond.1 ht3

/-- C2.  Starting from a fresh analyzer, the first occurrence of a class
in a batch yields its full descriptor (built once), and every later
occurrence of the same class yields the two-key stub; the output has one
entry per requested class. -/
theorem claim_C2 : ∀ cs rs s', analyze [] cs = some (rs, s') →
    rs.length = cs.length ∧
    ∀ i (hi : i < cs.length) (hj : i < rs.length),
      (cs.get ⟨i, hi⟩ ∉ cs.take i →
         ∃ info, build_class_info (cs.get ⟨i, hi⟩) = some info ∧
           rs.get ⟨i, hj⟩ = ClsResult.full info) ∧
      (cs.get ⟨i, hi⟩ ∈ cs.take i →
         rs.get ⟨i, hj⟩ = ClsResult.stub (cs.get ⟨i, hi⟩).cname) := by
  intro cs rs s' h
  obtain ⟨hlen, hpt⟩ := analyze_spec cs [] rs s' h
  refine ⟨hlen, fun i hi hj => ⟨?_, ?_⟩⟩
  · intro hno
    exact (hpt i hi hj).2 ⟨fun hs => absurd hs (List.not_mem_nil _), hno⟩
  · intro hyes
    exact (hpt i hi hj).1 (Or.inr hyes)

/-- The full descriptor `analyze` builds for `wcls`. -/
def wclsInfo : ClassInfo :=
  { cname := "W", descr := "", is_abstract := false, is_dataclass := false,
    is_pydantic := false, parent_classes := [],
    methods := [process_method wcls "foo" wfunc],
    properties := [], fields := FieldList.noF, class_variables := [] }

theorem claim_C2_witness :
    (∃ info, build_class_info (([wcls, wcls].get ⟨0, by decide⟩ : PyClass)) = some info ∧
       ([ClsResult.full wclsInfo, ClsResult.stub "W"].get ⟨0, by decide⟩ : ClsResult) =
         ClsResult.full info) ∧
    ([ClsResult.full wclsInfo, ClsResult.stub "W"].get ⟨1, by decide⟩ : ClsResult) =
      ClsResult.stub (([wcls, wcls].get ⟨1, by decide⟩ : PyClass)).cname :=
  ⟨((claim_C2 [wcls, wcls] [ClsResult.full wclsInfo, ClsResult.stub "W"] [wcls] rfl).2
      0 (by decide) (by decide)).1 (by decide),
   ((claim_C2 [wcls, wcls] [ClsResult.full wclsInfo, ClsResult.stub "W"] [wcls] rfl).2
      1 (by decide) (by decide)).2 (by decide)⟩

/-! ## C8: the mined raises list -/

theorem largestSplit_le {lit s : List Char} {b i : Nat}
    (h : largestSplit lit s b = some i) : i ≤ b := by
  induction b with
  | zero => simp [largestSplit] at h
  | succ n ih =>
    unfold largestSplit at h
    by_cases hp : lit.isPrefixOf (s.drop (n + 1))
    · simp only [hp, if_true, ite_true, Option.some.injEq] at h; omega
    · simp only [hp, if_false, ite_false] at h
      exact Nat.le_succ_of_le (ih h)

theorem largestSplit_pref {lit s : List Char} {b i : Nat}
    (h : largestSplit lit s b = some i) : lit.isPrefixOf (s.drop i) := by
  induction b with
  | zero => simp [largestSplit] at h
  | succ n ih =>
    unfold largestSplit at h
    by_cases hp : lit.isPrefixOf (s.drop (n + 1))
    · simp only [hp, if_true, ite_true, Option.some.injEq] at h
      cases h
      exact hp
    · simp only [hp, if_false, ite_false] at h
      exact ih h

theorem matchTokenLit_shape {lit s m rest : List Char}
    (h : matchTokenLit lit s = some (m, rest)) :
    ∃ w : List Char, w ≠ [] ∧ (∀ c ∈ w, isWordChar c = true) ∧ m = w ++ lit := by
  unfold matchTokenLit at h
  cases hsp : largestSplit lit s (s.takeWhile isWordChar).length with
  | none => rw [hsp] at h; simp at h
  | some i =>
    rw [hsp] at h
    simp only [Option.some.injEq, Prod.mk.injEq] at h
    obtain ⟨hm, -⟩ := h
    have hi1 : 1 ≤ i := largestSplit_pos hsp
    have hile : i ≤ (s.takeWhile isWordChar).length := largestSplit_le hsp
    have hpre : lit <+: s.drop i := List.isPrefixOf_iff_prefix.mp (largestSplit_pref hsp)
    refine ⟨s.take i, ?_, ?_, ?_⟩
    · intro hnil
      have : i = 0 ∨ s = [] := by
        rcases List.take_eq_nil_iff.mp hnil with h0 | hse
        · exact Or.inl h0
        · exact Or.inr hse
      rcases this with h0 | hse
      · omega
      · subst hse
        simp at hile
        omega
    · intro c hc
      obtain ⟨t, ht⟩ := List.takeWhile_prefix (l := s) isWordChar
      have : s.take i = (s.takeWhile isWordChar).take i := by
        conv_lhs => rw [← ht]
        rw [List.take_append_of_le_length hile]
      rw [this] at hc
      exact List.mem_takeWhile_imp (List.mem_of_mem_take hc)
    · rw [← hm, List.take_add]
      congr 1
      exact (List.prefix_iff_eq_take.mp hpre).symm

theorem matchTokenAt_shape {s m rest : List Char}
    (h : matchTokenAt s = some (m, rest)) :
    ∃ w : List Char, w ≠ [] ∧ (∀ c ∈ w, isWordChar c = true) ∧
      (m = w ++ "Error".data ∨ m = w ++ "Exception".data) := by
  unfold matchTokenAt at h
  cases h1 : matchTokenLit "Error".data s with
  | some r =>
    rw [h1] at h
    cases h
    obtain ⟨w, hw1, hw2, hw3⟩ := matchTokenLit_shape h1
    exact ⟨w, hw1, hw2, Or.inl hw3⟩
  | none =>
    rw [h1] at h
    dsimp only at h
    obtain ⟨w, hw1, hw2, hw3⟩ := matchTokenLit_shape h
    exact ⟨w, hw1, hw2, Or.inr hw3⟩

theorem findAllTokensGo_shape : ∀ (fuel : Nat) (s : List Char),
    ∀ x ∈ findAllTokensGo fuel s,
      ∃ w : List Char, w ≠ [] ∧ (∀ c ∈ w, isWordChar c = true) ∧
        (x.data = w ++ "Error".data ∨ x.data = w ++ "Exception".data) := by
  intro fuel
  induction fuel with
  | zero =>
    intro s x hx
    simp [findAllTokensGo] at hx
  | succ n ih =>
    intro s x hx
    cases s with
    | nil => simp [findAllTokensGo] at hx
    | cons c t =>
      rw [findAllTokensGo] at hx
      split at hx
      · rename_i m rest heq
        rcases List.mem_cons.mp hx with hxm | hxt
        · subst hxm
          exact matchTokenAt_shape heq
        · exact ih rest x hxt
      · exact ih t x hx

theorem findAllTokens_shape : ∀ s : List Char,
    ∀ x ∈ findAllTokens s,
      ∃ w : List Char, w ≠ [] ∧ (∀ c ∈ w, isWordChar c = true) ∧
        (x.data = w ++ "Error".data ∨ x.data = w ++ "Exception".data) :=
  fun s => findAllTokensGo_shape s.length s

theorem takeSection_bound : ∀ sec : List Char, ∃ k,
    takeSection sec = sec.take k ∧ k ≤ sec.length ∧
    (∀ j < k, termAt (sec.drop j) = false) ∧
    (k = sec.length ∨ termAt (sec.drop k) = true) := by
  intro sec
  induction sec with
  | nil => exact ⟨0, rfl, Nat.le_refl 0, fun j hj => absurd hj (Nat.not_lt_zero j), Or.inl rfl⟩
  | cons c t ih =>
    by_cases ht : termAt (c :: t) = true
    · refine ⟨0, ?_, Nat.zero_le _, fun j hj => absurd hj (Nat.not_lt_zero j), Or.inr ht⟩
      simp only [takeSection, ht, if_true, ite_true, List.take_zero]
    · obtain ⟨k, h1, h2, h3, h4⟩ := ih
      refine ⟨k + 1, ?_, by simp; omega, ?_, ?_⟩
      · have hstep : takeSection (c :: t) = c :: takeSection t := by
          simp only [takeSection]
          rw [if_neg ht]
        rw [hstep, h1]
        rfl
      · intro j hj
        match j with
        | 0 => simpa using ht
        | Nat.succ i => exact h3 i (Nat.lt_of_succ_lt_succ hj)
      · rcases h4 with he | hterm
        · exact Or.inl (by simp [he])
        · exact Or.inr hterm

/-- C8.  The mined raises list: empty for a missing docstring or when
the search pattern does not match; always duplicate-free; exactly the
findall matches of the group (up to the unspecified set order); every
element is a word followed by `Error` or `Exception`; and the group the
lazy quantifier captures is the prefix of the post-`Raises:` text
bounded by the first terminator (blank line, `Args:` / `Returns:`
header) or the end of the text. -/
theorem claim_C8 :
    parse_raises_from_docstring none = [] ∧
    (∀ d : String, findRaises d.data = none →
       parse_raises_from_docstring (some d) = []) ∧
    (∀ doc, (parse_raises_from_docstring doc).Nodup) ∧
    (∀ (d : String) (sec : List Char), findRaises d.data = some sec →
       ∀ x, x ∈ parse_raises_from_docstring (some d) ↔
            x ∈ findAllTokens (takeSection sec)) ∧
    (∀ doc x, x ∈ parse_raises_from_docstring doc →
       ∃ w : List Char, w ≠ [] ∧ (∀ c ∈ w, isWordChar c = true) ∧
         (x.data = w ++ "Error".data ∨ x.data = w ++ "Exception".data)) ∧
    (∀ sec : List Char, ∃ k,
       takeSection sec = sec.take k ∧ k ≤ sec.length ∧
       (∀ j < k, termAt (sec.drop j) = false) ∧
       (k = sec.length ∨ termAt (sec.drop k) = true)) := by
  refine ⟨rfl, ?_, ?_, ?_, ?_, takeSection_bound⟩
  · intro d h
    simp only [parse_raises_from_docstring, h]
  · intro doc
    cases doc with
    | none => simp [parse_raises_from_docstring]
    | some d =>
      cases hf : findRaises d.data with
      | none => simp [parse_raises_from_docstring, hf]
      | some sec =>
        simp only [parse_raises_from_docstring, hf]
        exact List.nodup_dedup _
  · intro d sec h x
    simp only [parse_raises_from_docstring, h]
    exact List.mem_dedup
  · intro doc x hx
    cases doc with
    | none => simp [parse_raises_from_docstring] at hx
    | some d =>
      cases hf : findRaises d.data with
      | none => simp [parse_raises_from_docstring, hf] at hx
      | some sec =>
        simp only [parse_raises_from_docstring, hf] at hx
        have hx2 : x ∈ findAllTokens (takeSection sec) := List.mem_dedup.mp hx
        exact findAllTokens_shape (takeSection sec) x hx2

/-- A docstring with a Raises section holding a repeated error name. -/
def d8 : String :=
  "Raises:\n  ValueError twice ValueError and FooException\n\nReturns: x"

/-- The suffix at which the lazy group starts inside `d8`. -/
def sec8 : List Char :=
  "ValueError twice ValueError and FooException\n\nReturns: x".data

/-- A docstring without any Raises section. -/
def dNo : String := "Args:\n  x: an argument"

theorem claim_C8_witness :
    parse_raises_from_docstring none = [] ∧
    parse_raises_from_docstring (some dNo) = [] ∧
    (parse_raises_from_docstring (some d8)).Nodup ∧
    ("ValueError" ∈ parse_raises_from_docstring (some d8) ↔
       "ValueError" ∈ findAllTokens (takeSection sec8)) ∧
    (∃ w : List Char, w ≠ [] ∧ (∀ c ∈ w, isWordChar c = true) ∧
       ("ValueError".data = w ++ "Error".data ∨
        "ValueError".data = w ++ "Exception".data)) :=
  ⟨claim_C8.1,
   claim_C8.2.1 dNo (by decide),
   claim_C8.2.2.1 (some d8),
   claim_C8.2.2.2.1 d8 sec8 (by decide) "ValueError",
   claim_C8.2.2.2.2.1 (some d8) "ValueError" (by decide)⟩

/-! ## C9: round trip of the serialized batch -/

mutual
def jsonSize : Json → Nat
  | Json.null => 1
  | Json.bool _ => 1
  | Json.str _ => 1
  | Json.arr xs => 1 + jsonSizeL xs
  | Json.obj ms => 1 + jsonSizeM ms

def jsonSizeL : List Json → Nat
  | [] => 1
  | x :: xs => 1 + jsonSize x + jsonSizeL xs

def jsonSizeM : List (String × Json) → Nat
  | [] => 1
  | kv :: ms => 1 + jsonSize kv.2 + jsonSizeM ms
end

theorem skipWs_replicate_space : ∀ (n : Nat) (s : List Char),
    skipWs (List.replicate n ' ' ++ s) = skipWs s := by
  intro n
  induction n with
  | zero => intro s; rfl
  | succ k ih =>
    intro s
    simp only [List.replicate_succ, List.cons_append, skipWs]
    rw [if_pos (by decide : isJsonWs ' ' = true)]
    exact ih s

theorem skipWs_jIndent (d : Nat) (s : List Char) :
    skipWs (jIndent d ++ s) = skipWs s :=
  skipWs_replicate_space (2 * d) s

theorem skipWs_newline (s : List Char) : skipWs ('\n' :: s) = skipWs s := by
  simp only [skipWs]
  rw [if_pos (by decide : isJsonWs '\n' = true)]

theorem skipWs_nonws {c : Char} (h : isJsonWs c = false) (s : List Char) :
    skipWs (c :: s) = c :: s := by
  simp only [skipWs, h]
  rw [if_neg (by simp [h])]

theorem skipWs_idem : ∀ s : List Char, skipWs (skipWs s) = skipWs s := by
  intro s
  induction s with
  | nil => rfl
  | cons c t ih =>
    by_cases hc : isJsonWs c = true
    · simp only [skipWs, hc, if_true, ite_true]
      exact ih
    · have hc' : isJsonWs c = false := by
        cases h : isJsonWs c
        · rfl
        · exact absurd h hc
      rw [skipWs_nonws hc', skipWs_nonws hc']

/-- Every rendered value starts with a non-whitespace character that is
not a closing bracket. -/
theorem renderJ_head : ∀ (j : Json) (d : Nat), ∃ c t, renderJ j d = c :: t ∧
    isJsonWs c = false ∧ c ≠ ']' ∧ c ≠ '\x7d' ∧ c ≠ ',' := by
  intro j d
  cases j with
  | null => exact ⟨'n', _, rfl, by decide, by decide, by decide, by decide⟩
  | bool b =>
    cases b with
    | true => exact ⟨'t', _, rfl, by decide, by decide, by decide, by decide⟩
    | false => exact ⟨'f', _, rfl, by decide, by decide, by decide, by decide⟩
  | str s => exact ⟨'"', _, rfl, by decide, by decide, by decide, by decide⟩
  | arr xs =>
    cases xs with
    | nil => exact ⟨'[', _, rfl, by decide, by decide, by decide, by decide⟩
    | cons x t => exact ⟨'[', _, rfl, by decide, by decide, by decide, by decide⟩
  | obj ms =>
    cases ms with
    | nil => exact ⟨'\x7b', _, rfl, by decide, by decide, by decide, by decide⟩
    | cons kv t => exact ⟨'\x7b', _, rfl, by decide, by decide, by decide, by decide⟩

theorem skipWs_renderJ (j : Json) (d : Nat) (rest : List Char) :
    skipWs (renderJ j d ++ rest) = renderJ j d ++ rest := by
  obtain ⟨c, t, heq, hws, -, -, -⟩ := renderJ_head j d
  rw [heq, List.cons_append, skipWs_nonws hws]

theorem hexVal_hexDigit : ∀ n < 16, hexVal (hexDigit n) = some n := by decide

theorem parseStrBody_escape : ∀ (s rest : List Char),
    parseStrBody (escapeStr s ++ '"' :: rest) = some (s, rest) := by
  intro s
  induction s with
  | nil =>
    intro rest
    simp only [escapeStr, List.nil_append]
    rw [parseStrBody.eq_def]
    dsimp only
    rw [if_pos rfl]
  | cons c t ih =>
    intro rest
    simp only [escapeStr, List.append_assoc]
    by_cases h1 : c = '"'
    · subst h1
      calc parseStrBody (escapeChar '"' ++ (escapeStr t ++ '"' :: rest))
          = (match parseStrBody (escapeStr t ++ '"' :: rest) with
             | some (s2, r) => some ('"' :: s2, r)
             | none => none) := rfl
        _ = some ('"' :: t, rest) := by rw [ih rest]
    · by_cases h2 : c = '\\'
      · subst h2
        calc parseStrBody (escapeChar '\\' ++ (escapeStr t ++ '"' :: rest))
            = (match parseStrBody (escapeStr t ++ '"' :: rest) with
               | some (s2, r) => some ('\\' :: s2, r)
               | none => none) := rfl
          _ = some ('\\' :: t, rest) := by rw [ih rest]
      · by_cases h3 : c = '\n'
        · subst h3
          calc parseStrBody (escapeChar '\n' ++ (escapeStr t ++ '"' :: rest))
              = (match parseStrBody (escapeStr t ++ '"' :: rest) with
                 | some (s2, r) => some ('\n' :: s2, r)
                 | none => none) := rfl
            _ = some ('\n' :: t, rest) := by rw [ih rest]
        · by_cases h4 : c = '\r'
          · subst h4
            calc parseStrBody (escapeChar '\r' ++ (escapeStr t ++ '"' :: rest))
                = (match parseStrBody (escapeStr t ++ '"' :: rest) with
                   | some (s2, r) => some ('\r' :: s2, r)
                   | none => none) := rfl
              _ = some ('\r' :: t, rest) := by rw [ih rest]
          · by_cases h5 : c = '\t'
            · subst h5
              calc parseStrBody (escapeChar '\t' ++ (escapeStr t ++ '"' :: rest))
                  = (match parseStrBody (escapeStr t ++ '"' :: rest) with
                     | some (s2, r) => some ('\t' :: s2, r)
                     | none => none) := rfl
                _ = some ('\t' :: t, rest) := by rw [ih rest]
            · by_cases h6 : c = '\x08'
              · subst h6
                calc parseStrBody (escapeChar '\x08' ++ (escapeStr t ++ '"' :: rest))
                    = (match parseStrBody (escapeStr t ++ '"' :: rest) with
                       | some (s2, r) => some ('\x08' :: s2, r)
                       | none => none) := rfl
                  _ = some ('\x08' :: t, rest) := by rw [ih rest]
              · by_cases h7 : c = '\x0c'
                · subst h7
                  calc parseStrBody (escapeChar '\x0c' ++ (escapeStr t ++ '"' :: rest))
                      = (match parseStrBody (escapeStr t ++ '"' :: rest) with
                         | some (s2, r) => some ('\x0c' :: s2, r)
                         | none => none) := rfl
                    _ = some ('\x0c' :: t, rest) := by rw [ih rest]
                · by_cases h8 : c.toNat < 32
                  · have hesc : escapeChar c =
                        ['\\', 'u', '0', '0', hexDigit (c.toNat / 16), hexDigit (c.toNat % 16)] := by
                      unfold escapeChar
                      rw [if_neg h1, if_neg h2, if_neg h3, if_neg h4, if_neg h5,
                          if_neg h6, if_neg h7, if_pos h8]
                    rw [hesc]
                    simp only [List.cons_append, List.nil_append]
                    have step : parseStrBody
                        ('\\' :: 'u' :: '0' :: '0' :: hexDigit (c.toNat / 16) ::
                          hexDigit (c.toNat % 16) :: (escapeStr t ++ '"' :: rest)) =
                        (match hexVal '0', hexVal '0', hexVal (hexDigit (c.toNat / 16)),
                               hexVal (hexDigit (c.toNat % 16)) with
                         | some a, some b, some c3, some d =>
                           match parseStrBody (escapeStr t ++ '"' :: rest) with
                           | some (s2, r) =>
                             some (Char.ofNat (((a * 16 + b) * 16 + c3) * 16 + d) :: s2, r)
                           | none => none
                         | _, _, _, _ => none) := rfl
                    rw [step, hexVal_hexDigit (c.toNat / 16) (by omega),
                        hexVal_hexDigit (c.toNat % 16) (by omega)]
                    have hzero : hexVal '0' = some 0 := rfl
                    rw [hzero]
                    dsimp only
                    rw [ih rest]
                    have hval : ((0 * 16 + 0) * 16 + c.toNat / 16) * 16 + c.toNat % 16
                        = c.toNat := by omega
                    rw [hval, Char.ofNat_toNat]
                  · have hesc : escapeChar c = [c] := by
                      unfold escapeChar
                      rw [if_neg h1, if_neg h2, if_neg h3, if_neg h4, if_neg h5,
                          if_neg h6, if_neg h7, if_neg h8]
                    rw [hesc]
                    simp only [List.cons_append, List.nil_append]
                    rw [parseStrBody.eq_def]
                    dsimp only
                    rw [if_neg h1, if_neg h2, ih rest]

theorem jsonSize_pos : ∀ j : Json, 1 ≤ jsonSize j := by
  intro j
  cases j <;> simp [jsonSize] <;> omega

theorem jsonSizeL_pos : ∀ xs : List Json, 1 ≤ jsonSizeL xs := by
  intro xs
  cases xs <;> simp [jsonSizeL] <;> omega

theorem jsonSizeM_pos : ∀ ms : List (String × Json), 1 ≤ jsonSizeM ms := by
  intro ms
  cases ms <;> simp [jsonSizeM] <;> omega

theorem parseV_skipWs (fuel : Nat) (s : List Char) :
    parseV fuel (skipWs s) = parseV fuel s := by
  cases fuel with
  | zero => rfl
  | succ n =>
    conv_lhs => rw [parseV.eq_def]
    conv_rhs => rw [parseV.eq_def]
    dsimp only
    rw [skipWs_idem]

theorem parseElems_skipWs (fuel : Nat) (s : List Char) :
    parseElems fuel (skipWs s) = parseElems fuel s := by
  cases fuel with
  | zero => rfl
  | succ n =>
    conv_lhs => rw [parseElems.eq_def]
    conv_rhs => rw [parseElems.eq_def]
    dsimp only
    rw [parseV_skipWs]

theorem parseMembers_skipWs (fuel : Nat) (s : List Char) :
    parseMembers fuel (skipWs s) = parseMembers fuel s := by
  cases fuel with
  | zero => rfl
  | succ n =>
    conv_lhs => rw [parseMembers.eq_def]
    conv_rhs => rw [parseMembers.eq_def]
    dsimp only
    rw [skipWs_idem]

theorem skipWs_ws {c : Char} (hc : isJsonWs c = true) (s : List Char) :
    skipWs (c :: s) = skipWs s := by
  simp only [skipWs, hc, if_true, ite_true]

theorem skipWs_renderItems_cons (x : Json) (xs : List Json) (d : Nat) (T : List Char) :
    ∃ R, skipWs (renderItems (x :: xs) d ++ T) = renderJ x d ++ R := by
  cases xs with
  | nil =>
    refine ⟨T, ?_⟩
    show skipWs ((jIndent d ++ renderJ x d) ++ T) = _
    rw [List.append_assoc, skipWs_jIndent, skipWs_renderJ]
  | cons y ys =>
    refine ⟨',' :: '\n' :: (renderItems (y :: ys) d ++ T), ?_⟩
    show skipWs ((jIndent d ++ renderJ x d ++ ',' :: '\n' :: renderItems (y :: ys) d) ++ T) = _
    simp only [List.append_assoc, List.cons_append]
    rw [skipWs_jIndent, skipWs_renderJ]

theorem skipWs_renderMembers_cons (k : String) (v : Json) (ms : List (String × Json))
    (d : Nat) (T : List Char) :
    ∃ R, skipWs (renderMembers ((k, v) :: ms) d ++ T) =
      '"' :: (escapeStr k.data ++ '"' :: R) := by
  cases ms with
  | nil =>
    refine ⟨':' :: ' ' :: (renderJ v d ++ T), ?_⟩
    show skipWs ((jIndent d ++ quoteStr k.data ++ ':' :: ' ' :: renderJ v d) ++ T) = _
    simp only [quoteStr, List.append_assoc, List.cons_append]
    rw [skipWs_jIndent]
    rw [skipWs_nonws (by decide : isJsonWs '"' = false)]
    simp [List.append_assoc]
  | cons m ms2 =>
    refine ⟨':' :: ' ' :: (renderJ v d ++ ',' :: '\n' :: (renderMembers (m :: ms2) d ++ T)), ?_⟩
    show skipWs ((jIndent d ++ quoteStr k.data ++ ':' :: ' ' :: renderJ v d ++
        ',' :: '\n' :: renderMembers (m :: ms2) d) ++ T) = _
    simp only [quoteStr, List.append_assoc, List.cons_append]
    rw [skipWs_jIndent]
    rw [skipWs_nonws (by decide : isJsonWs '"' = false)]
    simp [List.append_assoc]

theorem parse_render : ∀ fuel : Nat,
    (∀ (j : Json) (d : Nat) (rest : List Char), jsonSize j ≤ fuel →
       parseV fuel (renderJ j d ++ rest) = some (j, rest)) ∧
    (∀ (xs : List Json) (d dcl : Nat) (rest : List Char), jsonSizeL xs ≤ fuel → xs ≠ [] →
       parseElems fuel (renderItems xs d ++ '\n' :: (jIndent dcl ++ ']' :: rest)) =
         some (xs, rest)) ∧
    (∀ (ms : List (String × Json)) (d dcl : Nat) (rest : List Char),
       jsonSizeM ms ≤ fuel → ms ≠ [] →
       parseMembers fuel (renderMembers ms d ++ '\n' :: (jIndent dcl ++ '\x7d' :: rest)) =
         some (ms, rest)) := by
  intro fuel
  induction fuel with
  | zero =>
    refine ⟨?_, ?_, ?_⟩
    · intro j d rest h
      have := jsonSize_pos j
      omega
    · intro xs d dcl rest h hne
      have := jsonSizeL_pos xs
      omega
    · intro ms d dcl rest h hne
      have := jsonSizeM_pos ms
      omega
  | succ n ihh =>
    obtain ⟨ih1, ih2, ih3⟩ := ihh
    refine ⟨?_, ?_, ?_⟩
    · -- values
      intro j d rest hsz
      cases j with
      | null => rfl
      | bool b => cases b <;> rfl
      | str s =>
        have h1 : renderJ (Json.str s) d ++ rest = '"' :: (escapeStr s.data ++ '"' :: rest) := by
          simp [renderJ, quoteStr]
        rw [h1]
        have h2 : parseV (n + 1) ('"' :: (escapeStr s.data ++ '"' :: rest)) =
            (match parseStrBody (escapeStr s.data ++ '"' :: rest) with
             | some (cs, r) => some (Json.str (String.mk cs), r)
             | none => none) := rfl
        rw [h2, parseStrBody_escape]
      | arr xs =>
        cases xs with
        | nil => rfl
        | cons x xs2 =>
          have hn : renderJ (Json.arr (x :: xs2)) d ++ rest =
              '[' :: '\n' :: (renderItems (x :: xs2) (d + 1) ++
                '\n' :: (jIndent d ++ ']' :: rest)) := by
            show ('[' :: '\n' :: (renderItems (x :: xs2) (d + 1) ++
              '\n' :: (jIndent d ++ [']']))) ++ rest = _
            simp [List.append_assoc]
          rw [hn]
          have step : parseV (n + 1) ('[' :: '\n' :: (renderItems (x :: xs2) (d + 1) ++
              '\n' :: (jIndent d ++ ']' :: rest))) =
              (let u := skipWs ('\n' :: (renderItems (x :: xs2) (d + 1) ++
                 '\n' :: (jIndent d ++ ']' :: rest)));
               if u.head? = some ']' then some (Json.arr [], u.tail)
               else
                 match parseElems n u with
                 | some (ys, r) => some (Json.arr ys, r)
                 | none => none) := rfl
          rw [step]
          obtain ⟨R, hR⟩ := skipWs_renderItems_cons x xs2 (d + 1)
            ('\n' :: (jIndent d ++ ']' :: rest))
          rw [skipWs_ws (by decide), hR]
          obtain ⟨c, ct, hc, hws, hc1, hc2, hc3⟩ := renderJ_head x (d + 1)
          rw [hc]
          dsimp only
          rw [if_neg (by simp [List.head?]; exact fun hcc => hc1 hcc)]
          have hszL : jsonSizeL (x :: xs2) ≤ n := by
            simp only [jsonSize] at hsz
            omega
          have hpe : parseElems n ((c :: ct) ++ R) = some (x :: xs2, rest) := by
            rw [← hc, ← hR, parseElems_skipWs]
            exact ih2 (x :: xs2) (d + 1) d rest hszL (by simp)
          rw [hpe]
      | obj ms =>
        cases ms with
        | nil => rfl
        | cons kv ms2 =>
          obtain ⟨k, v⟩ := kv
          have hn : renderJ (Json.obj ((k, v) :: ms2)) d ++ rest =
              '\x7b' :: '\n' :: (renderMembers ((k, v) :: ms2) (d + 1) ++
                '\n' :: (jIndent d ++ '\x7d' :: rest)) := by
            show ('\x7b' :: '\n' :: (renderMembers ((k, v) :: ms2) (d + 1) ++
              '\n' :: (jIndent d ++ ['\x7d']))) ++ rest = _
            simp [List.append_assoc]
          rw [hn]
          have step : parseV (n + 1) ('\x7b' :: '\n' :: (renderMembers ((k, v) :: ms2) (d + 1) ++
              '\n' :: (jIndent d ++ '\x7d' :: rest))) =
              (let u := skipWs ('\n' :: (renderMembers ((k, v) :: ms2) (d + 1) ++
                 '\n' :: (jIndent d ++ '\x7d' :: rest)));
               if u.head? = some '\x7d' then some (Json.obj [], u.tail)
               else
                 match parseMembers n u with
                 | some (ys, r) => some (Json.obj ys, r)
                 | none => none) := rfl
          rw [step]
          obtain ⟨R, hR⟩ := skipWs_renderMembers_cons k v ms2 (d + 1)
            ('\n' :: (jIndent d ++ '\x7d' :: rest))
          rw [skipWs_ws (by decide), hR]
          dsimp only
          rw [if_neg (by simp [List.head?])]
          have hszM : jsonSizeM ((k, v) :: ms2) ≤ n := by
            simp only [jsonSize] at hsz
            omega
          have hpm : parseMembers n ('"' :: (escapeStr k.data ++ '"' :: R)) =
              some ((k, v) :: ms2, rest) := by
            rw [← hR, parseMembers_skipWs]
            exact ih3 ((k, v) :: ms2) (d + 1) d rest hszM (by simp)
          rw [hpm]
    · -- array elements
      intro xs d dcl rest hsz hne
      cases xs with
      | nil => exact absurd rfl hne
      | cons x xs2 =>
        have hszx : jsonSize x ≤ n := by
          simp only [jsonSizeL] at hsz
          have := jsonSizeL_pos xs2
          omega
        cases xs2 with
        | nil =>
          have hin : renderItems [x] d ++ '\n' :: (jIndent dcl ++ ']' :: rest) =
              jIndent d ++ (renderJ x d ++ '\n' :: (jIndent dcl ++ ']' :: rest)) := by
            show (jIndent d ++ renderJ x d) ++ _ = _
            simp [List.append_assoc]
          rw [hin]
          have step : parseElems (n + 1)
              (jIndent d ++ (renderJ x d ++ '\n' :: (jIndent dcl ++ ']' :: rest))) =
              (match parseV n (jIndent d ++ (renderJ x d ++ '\n' :: (jIndent dcl ++ ']' :: rest))) with
               | none => none
               | some (j, r) =>
                 let w := skipWs r
                 if w.head? = some ',' then
                   match parseElems n w.tail with
                   | some (js, r3) => some (j :: js, r3)
                   | none => none
                 else if w.head? = some ']' then some ([j], w.tail)
                 else none) := by
            rw [parseElems.eq_def]
          rw [step]
          have hv : parseV n (jIndent d ++ (renderJ x d ++ '\n' :: (jIndent dcl ++ ']' :: rest))) =
              some (x, '\n' :: (jIndent dcl ++ ']' :: rest)) := by
            rw [← parseV_skipWs, skipWs_jIndent, skipWs_renderJ]
            exact ih1 x d _ hszx
          rw [hv]
          dsimp only
          rw [skipWs_ws (by decide), skipWs_jIndent,
              skipWs_nonws (by decide : isJsonWs ']' = false)]
          rw [if_neg (by simp [List.head?]), if_pos (by simp [List.head?])]
          rfl
        | cons y ys =>
          have hin : renderItems (x :: y :: ys) d ++ '\n' :: (jIndent dcl ++ ']' :: rest) =
              jIndent d ++ (renderJ x d ++ ',' :: '\n' ::
                (renderItems (y :: ys) d ++ '\n' :: (jIndent dcl ++ ']' :: rest))) := by
            show (jIndent d ++ renderJ x d ++ ',' :: '\n' :: renderItems (y :: ys) d) ++ _ = _
            simp [List.append_assoc]
          rw [hin]
          have step : parseElems (n + 1)
              (jIndent d ++ (renderJ x d ++ ',' :: '\n' ::
                (renderItems (y :: ys) d ++ '\n' :: (jIndent dcl ++ ']' :: rest)))) =
              (match parseV n (jIndent d ++ (renderJ x d ++ ',' :: '\n' ::
                  (renderItems (y :: ys) d ++ '\n' :: (jIndent dcl ++ ']' :: rest)))) with
               | none => none
               | some (j, r) =>
                 let w := skipWs r
                 if w.head? = some ',' then
                   match parseElems n w.tail with
                   | some (js, r3) => some (j :: js, r3)
                   | none => none
                 else if w.head? = some ']' then some ([j], w.tail)
                 else none) := by
            rw [parseElems.eq_def]
          rw [step]
          have hv : parseV n (jIndent d ++ (renderJ x d ++ ',' :: '\n' ::
              (renderItems (y :: ys) d ++ '\n' :: (jIndent dcl ++ ']' :: rest)))) =
              some (x, ',' :: '\n' ::
                (renderItems (y :: ys) d ++ '\n' :: (jIndent dcl ++ ']' :: rest))) := by
            rw [← parseV_skipWs, skipWs_jIndent, skipWs_renderJ]
            exact ih1 x d _ hszx
          rw [hv]
          dsimp only
          rw [skipWs_nonws (by decide : isJsonWs ',' = false)]
          rw [if_pos (by simp [List.head?])]
          have htail : parseElems n ('\n' ::
              (renderItems (y :: ys) d ++ '\n' :: (jIndent dcl ++ ']' :: rest))) =
              some (y :: ys, rest) := by
            rw [← parseElems_skipWs, skipWs_ws (by decide), parseElems_skipWs]
            refine ih2 (y :: ys) d dcl rest ?_ (by simp)
            simp only [jsonSizeL] at hsz ⊢
            have := jsonSize_pos x
            omega
          rw [show List.tail (',' :: '\n' ::
              (renderItems (y :: ys) d ++ '\n' :: (jIndent dcl ++ ']' :: rest))) =
              '\n' :: (renderItems (y :: ys) d ++ '\n' :: (jIndent dcl ++ ']' :: rest)) from rfl]
          rw [htail]
    · -- object members
      intro ms d dcl rest hsz hne
      cases ms with
      | nil => exact absurd rfl hne
      | cons kv ms2 =>
        obtain ⟨k, v⟩ := kv
        have hszv : jsonSize v ≤ n := by
          simp only [jsonSizeM] at hsz
          have := jsonSizeM_pos ms2
          omega
        have hkey : ∀ Z : List Char,
            parseMembers (n + 1) (jIndent d ++ ('"' :: (escapeStr k.data ++ '"' ::
              (':' :: ' ' :: (renderJ v d ++ Z))))) =
            (match parseV n (' ' :: (renderJ v d ++ Z)) with
             | none => none
             | some (v2, r3) =>
               let z := skipWs r3
               if z.head? = some ',' then
                 match parseMembers n z.tail with
                 | some (ms3, r5) => some ((String.mk k.data, v2) :: ms3, r5)
                 | none => none
               else if z.head? = some '\x7d' then some ([(String.mk k.data, v2)], z.tail)
               else none) := by
          intro Z
          rw [parseMembers.eq_def]
          dsimp only
          rw [skipWs_jIndent, skipWs_nonws (by decide : isJsonWs '"' = false)]
          rw [if_pos (by simp [List.head?])]
          rw [show List.tail ('"' :: (escapeStr k.data ++ '"' ::
            (':' :: ' ' :: (renderJ v d ++ Z)))) =
            escapeStr k.data ++ '"' :: (':' :: ' ' :: (renderJ v d ++ Z)) from rfl]
          rw [parseStrBody_escape]
          dsimp only
          rw [skipWs_nonws (by decide : isJsonWs ':' = false)]
          rw [if_pos (by simp [List.head?])]
          rfl
        have hval : ∀ Z : List Char, parseV n (' ' :: (renderJ v d ++ Z)) = some (v, Z) := by
          intro Z
          rw [← parseV_skipWs, skipWs_ws (by decide), skipWs_renderJ]
          exact ih1 v d Z hszv
        cases ms2 with
        | nil =>
          have hin : renderMembers [(k, v)] d ++ '\n' :: (jIndent dcl ++ '\x7d' :: rest) =
              jIndent d ++ ('"' :: (escapeStr k.data ++ '"' ::
                (':' :: ' ' :: (renderJ v d ++ '\n' :: (jIndent dcl ++ '\x7d' :: rest))))) := by
            show (jIndent d ++ quoteStr k.data ++ ':' :: ' ' :: renderJ v d) ++ _ = _
            simp [quoteStr, List.append_assoc]
          rw [hin, hkey, hval]
          dsimp only
          rw [skipWs_ws (by decide), skipWs_jIndent,
              skipWs_nonws (by decide : isJsonWs '\x7d' = false)]
          rw [if_neg (by simp [List.head?]), if_pos (by simp [List.head?])]
          rfl
        | cons m ms3 =>
          have hin : renderMembers ((k, v) :: m :: ms3) d ++
                '\n' :: (jIndent dcl ++ '\x7d' :: rest) =
              jIndent d ++ ('"' :: (escapeStr k.data ++ '"' ::
                (':' :: ' ' :: (renderJ v d ++ ',' :: '\n' ::
                  (renderMembers (m :: ms3) d ++
                    '\n' :: (jIndent dcl ++ '\x7d' :: rest)))))) := by
            show (jIndent d ++ quoteStr k.data ++ ':' :: ' ' :: renderJ v d ++
              ',' :: '\n' :: renderMembers (m :: ms3) d) ++ _ = _
            simp [quoteStr, List.append_assoc]
          rw [hin, hkey, hval]
          dsimp only
          rw [skipWs_nonws (by decide : isJsonWs ',' = false)]
          rw [if_pos (by simp [List.head?])]
          have htail : parseMembers n ('\n' :: (renderMembers (m :: ms3) d ++
              '\n' :: (jIndent dcl ++ '\x7d' :: rest))) = some (m :: ms3, rest) := by
            rw [← parseMembers_skipWs, skipWs_ws (by decide), parseMembers_skipWs]
            refine ih3 (m :: ms3) d dcl rest ?_ (by simp)
            simp only [jsonSizeM] at hsz ⊢
            have := jsonSize_pos v
            omega
          rw [show List.tail (',' :: '\n' :: (renderMembers (m :: ms3) d ++
              '\n' :: (jIndent dcl ++ '\x7d' :: rest))) =
              '\n' :: (renderMembers (m :: ms3) d ++
                '\n' :: (jIndent dcl ++ '\x7d' :: rest)) from rfl]
          rw [htail]

theorem render_size : ∀ n : Nat,
    (∀ (j : Json) (d : Nat), jsonSize j ≤ n → jsonSize j ≤ (renderJ j d).length) ∧
    (∀ (xs : List Json) (d : Nat), jsonSizeL xs ≤ n →
       jsonSizeL xs ≤ (renderItems xs d).length + 2) ∧
    (∀ (ms : List (String × Json)) (d : Nat), jsonSizeM ms ≤ n →
       jsonSizeM ms ≤ (renderMembers ms d).length + 2) := by
  intro n
  induction n with
  | zero =>
    refine ⟨?_, ?_, ?_⟩
    · intro j d h
      have := jsonSize_pos j
      omega
    · intro xs d h
      have := jsonSizeL_pos xs
      omega
    · intro ms d h
      have := jsonSizeM_pos ms
      omega
  | succ n ihh =>
    obtain ⟨ih1, ih2, ih3⟩ := ihh
    refine ⟨?_, ?_, ?_⟩
    · intro j d hsz
      cases j with
      | null => simp [jsonSize, renderJ]
      | bool b => cases b <;> simp [jsonSize, renderJ]
      | str s => simp [jsonSize, renderJ, quoteStr]
      | arr xs =>
        cases xs with
        | nil => simp [jsonSize, jsonSizeL, renderJ]
        | cons x xs2 =>
          have hL : jsonSizeL (x :: xs2) ≤ n := by
            simp only [jsonSize] at hsz
            omega
          have := ih2 (x :: xs2) (d + 1) hL
          simp only [jsonSize, renderJ, List.length_cons, List.length_append]
          omega
      | obj ms =>
        cases ms with
        | nil => simp [jsonSize, jsonSizeM, renderJ]
        | cons kv ms2 =>
          have hM : jsonSizeM (kv :: ms2) ≤ n := by
            simp only [jsonSize] at hsz
            omega
          have := ih3 (kv :: ms2) (d + 1) hM
          simp only [jsonSize, renderJ, List.length_cons, List.length_append]
          omega
    · intro xs d hsz
      cases xs with
      | nil => simp [jsonSizeL, renderItems]
      | cons x xs2 =>
        have hx : jsonSize x ≤ n := by
          simp only [jsonSizeL] at hsz
          have := jsonSizeL_pos xs2
          omega
        have h1 := ih1 x d hx
        cases xs2 with
        | nil =>
          simp only [jsonSizeL, renderItems, List.length_append]
          omega
        | cons y ys =>
          have hys : jsonSizeL (y :: ys) ≤ n := by
            simp only [jsonSizeL] at hsz ⊢
            have := jsonSize_pos x
            omega
          have h2 := ih2 (y :: ys) d hys
          simp only [jsonSizeL] at hsz hys h2 ⊢
          simp only [renderItems, List.length_append, List.length_cons]
          omega
    · intro ms d hsz
      cases ms with
      | nil => simp [jsonSizeM, renderMembers]
      | cons kv ms2 =>
        obtain ⟨k, v⟩ := kv
        have hv : jsonSize v ≤ n := by
          simp only [jsonSizeM] at hsz
          have := jsonSizeM_pos ms2
          omega
        have h1 := ih1 v d hv
        cases ms2 with
        | nil =>
          simp only [jsonSizeM, renderMembers, List.length_append, List.length_cons]
          omega
        | cons m ms3 =>
          have hms : jsonSizeM (m :: ms3) ≤ n := by
            simp only [jsonSizeM] at hsz ⊢
            have := jsonSize_pos v
            omega
          have h2 := ih3 (m :: ms3) d hms
          simp only [jsonSizeM] at hsz hms h2 ⊢
          simp only [renderMembers, List.length_append, List.length_cons]
          omega

/-- The round trip: parsing the serialized text recovers the JSON value
exactly. -/
theorem loads_dumps : ∀ j : Json, loads (dumps j) = some j := by
  intro j
  have hsz : jsonSize j ≤ (renderJ j 0).length :=
    (render_size (jsonSize j)).1 j 0 (Nat.le_refl _)
  have hmain := (parse_render ((renderJ j 0).length + 1)).1 j 0 [] (by omega)
  unfold loads dumps
  have hdata : (String.mk (renderJ j 0)).data = renderJ j 0 := rfl
  rw [hdata]
  rw [List.append_nil] at hmain
  rw [hmain]
  rfl

/-- The name a batch entry reports (stub name or full descriptor
name). -/
def resultName : ClsResult → String
  | ClsResult.stub n => n
  | ClsResult.full i => i.cname

theorem analyze_names : ∀ (cs seen : List PyClass) rs s',
    analyze seen cs = some (rs, s') →
    rs.length = cs.length ∧
    ∀ i (hi : i < cs.length) (hj : i < rs.length),
      resultName (rs.get ⟨i, hj⟩) = (cs.get ⟨i, hi⟩).cname := by
  intro cs seen rs s' h
  obtain ⟨hlen, hpt⟩ := analyze_spec cs seen rs s' h
  refine ⟨hlen, fun i hi hj => ?_⟩
  by_cases hmem : cs.get ⟨i, hi⟩ ∈ seen ∨ cs.get ⟨i, hi⟩ ∈ cs.take i
  · rw [(hpt i hi hj).1 hmem]
    rfl
  · push_neg at hmem
    obtain ⟨info, hb, hfull⟩ := (hpt i hi hj).2 hmem
    rw [hfull]
    exact (build_class_info_parts hb).2

/-- The descriptor list under the sole `"classes"` key. -/
def json_classes (j : Json) : Option (List Json) :=
  match j with
  | Json.obj [("classes", Json.arr ds)] => some ds
  | _ => none

/-- The string under a descriptor object's `"name"` key. -/
def json_name (j : Json) : Option String :=
  match j with
  | Json.obj kvs =>
    match List.lookup "name" kvs with
    | some (Json.str s) => some s
    | _ => none
  | _ => none

theorem encodeResult_name : ∀ r : ClsResult,
    json_name (encodeResult r) = some (resultName r) := by
  intro r
  cases r with
  | stub n => rfl
  | full i => rfl

/-- C9.  Parsing the `to_json` output back recovers the encoded batch
exactly: the descriptor list under the sole `"classes"` key has one
entry per input class, and the i-th descriptor (full or stub) names the
i-th input class. -/
theorem claim_C9 : ∀ (cs : List PyClass) rs s', analyze [] cs = some (rs, s') →
    to_json [] cs = some (dumps (encodeAnalyze rs), s') ∧
    loads (dumps (encodeAnalyze rs)) = some (encodeAnalyze rs) ∧
    ∃ ds : List Json,
      json_classes (encodeAnalyze rs) = some ds ∧
      ds.length = cs.length ∧
      ∀ i (hi : i < cs.length) (hd : i < ds.length),
        json_name (ds.get ⟨i, hd⟩) = some (cs.get ⟨i, hi⟩).cname := by
  intro cs rs s' h
  obtain ⟨hlen, hnames⟩ := analyze_names cs [] rs s' h
  refine ⟨?_, loads_dumps _, rs.map encodeResult, rfl, by simp [hlen], ?_⟩
  · unfold to_json
    rw [h]
  · intro i hi hd
    have hj : i < rs.length := by
      simp at hd
      omega
    have hget : (rs.map encodeResult).get ⟨i, hd⟩ = encodeResult (rs.get ⟨i, hj⟩) := by
      simp [List.getElem_map]
    rw [hget, encodeResult_name, hnames i hi hj]

theorem claim_C9_witness :
    to_json [] [wcls] = some (dumps (encodeAnalyze [ClsResult.full wclsInfo]), [wcls]) ∧
    loads (dumps (encodeAnalyze [ClsResult.full wclsInfo])) =
      some (encodeAnalyze [ClsResult.full wclsInfo]) ∧
    ∃ ds : List Json,
      json_classes (encodeAnalyze [ClsResult.full wclsInfo]) = some ds ∧
      ds.length = ([wcls] : List PyClass).length ∧
      ∀ i (hi : i < ([wcls] : List PyClass).length) (hd : i < ds.length),
        json_name (ds.get ⟨i, hd⟩) = some (([wcls] : List PyClass).get ⟨i, hi⟩).cname :=
  claim_C9 [wcls] [ClsResult.full wclsInfo] [wcls] rfl
